import Mathlib

/-!
Verification development for an 8x8 checkers engine.

The board engine (`game_board.py`) is embedded as follows: the board is a
total function from integer coordinates to cell contents (only the 8x8
in-range cells matter; every access in the source is guarded by `Inside`).
The stateful capture-chain search, which temporarily mutates the board and
restores it, is embedded as an explicit state-passing function returning
the final board alongside the accumulated moves.  Wall-clock time in the
search engine (`search_tool_box.py`) is modelled abstractly: every call to
`time.time()` reads the next value of an ambient integer-valued sequence
`clock : Nat -> Int` at a threaded call index.
-/

/-- Square contents: '.' = e, 'w' = wm, 'W' = wk, 'b' = bm, 'B' = bk. -/
inductive Cell where
  | e : Cell
  | wm : Cell
  | wk : Cell
  | bm : Cell
  | bk : Cell
deriving DecidableEq, Repr

/-- The side to move: 'w' or 'b' in the source. -/
inductive Side where
  | w : Side
  | b : Side
deriving DecidableEq, Repr

/-- A coordinate (row, column); the source uses plain Python int pairs. -/
abbrev Coordinate := Int × Int

/-- The 8x8 board, as a total function on integer coordinates.  Cells outside
the 8x8 range are never read or written by the guarded source code. -/
abbrev Board := Coordinate → Cell

instance : Inhabited Cell := ⟨Cell.e⟩

/-- `GameBoard.SetPiece`: place/replace piece at (r,c). -/
def setPiece (b : Board) (rc : Coordinate) (p : Cell) : Board :=
  fun x => if x = rc then p else b x

/-- `GameBoard.PieceAt`: return piece at (r,c). -/
def pieceAt (b : Board) (rc : Coordinate) : Cell := b rc

/-- `GameBoard.Inside`: 0 <= r < 8 and 0 <= c < 8 (self.size = 8). -/
def inside (r c : Int) : Bool :=
  decide (0 ≤ r ∧ r < 8 ∧ 0 ≤ c ∧ c < 8)

/-- `GameBoard._InitialBoard`: black men on dark squares of rows 0-2,
white men on dark squares of rows 5-7. -/
def initialBoard : Board := fun rc =>
  if 0 ≤ rc.1 ∧ rc.1 < 3 ∧ 0 ≤ rc.2 ∧ rc.2 < 8 ∧ (rc.1 + rc.2) % 2 = 1 then Cell.bm
  else if 5 ≤ rc.1 ∧ rc.1 < 8 ∧ 0 ≤ rc.2 ∧ rc.2 < 8 ∧ (rc.1 + rc.2) % 2 = 1 then Cell.wm
  else Cell.e

/-- `GameBoard.Clone`: boards are values here, so cloning is the identity. -/
def clone (b : Board) : Board := b

/-- `GameBoard._Directions`: movement directions for a piece, transcribed
exactly from the source (note the literal `downs + [(-1, -1), (1, 1)]`
for the black king). -/
def directions (piece : Cell) : List (Int × Int) :=
  if piece = Cell.wm ∨ piece = Cell.wk then
    let ups : List (Int × Int) := [(-1, -1), (-1, 1)]
    if piece = Cell.wk then ups ++ [(1, -1), (1, 1)] else ups
  else
    let downs : List (Int × Int) := [(1, -1), (1, 1)]
    if piece = Cell.bk then downs ++ [(-1, -1), (1, 1)] else downs

/-- `GameBoard._Opponents`. -/
def opponents (side : Side) : List Cell :=
  match side with
  | Side.w => [Cell.bm, Cell.bk]
  | Side.b => [Cell.wm, Cell.wk]

/-- The pieces belonging to a side (the `targets` tuple of `_HasPieces`). -/
def targets (side : Side) : List Cell :=
  match side with
  | Side.w => [Cell.wm, Cell.wk]
  | Side.b => [Cell.bm, Cell.bk]

/-- `GameBoard._HasPieces`. -/
def hasPieces (b : Board) (side : Side) : Bool :=
  (List.range 8).any fun r => (List.range 8).any fun c =>
    decide (b ((r : Int), (c : Int)) ∈ targets side)

/-- `Move`: single checker move, with the source's field names. -/
structure Move where
  StartingMoveLocation : Coordinate
  TargetingMoveLocation : Coordinate
  path : List Coordinate
  is_capture : Bool
  captured : List Coordinate
deriving DecidableEq, Repr

/-- The de-duplication key used by `_MovesFrom`'s `seen` set:
`(mv.StartingMoveLocation, tuple(mv.path), tuple(mv.captured))`. -/
def keyOf (mv : Move) : Coordinate × List Coordinate × List Coordinate :=
  (mv.StartingMoveLocation, mv.path, mv.captured)

/-- Mid-chain promotion applied on landing at `rc` (lines 125-128 of
`game_board.py`). -/
def promoteAt (side : Side) (pl : Cell) (rc : Coordinate) : Cell :=
  if side = Side.w ∧ rc.1 = 0 ∧ pl = Cell.wm then Cell.wk
  else if side = Side.b ∧ rc.1 = 7 ∧ pl = Cell.bm then Cell.bk
  else pl

/-- The rank a piece holds after landing on every coordinate of `landings`
in order (the chain's `piece_local`). -/
def chainRank (side : Side) (p0 : Cell) (landings : List Coordinate) : Cell :=
  landings.foldl (promoteAt side) p0

mutual
/-- The recursive multi-jump search `try_captures`.  The accumulator
carries the `captures` list (which also plays the role of the `seen` set
via `keyOf`) and the current board; the `found` flag, mutations and the
`finally`-restore are threaded explicitly through `capDirs`. -/
def capStep (side : Side) : Nat → Board → Int → Int → Cell →
    List Coordinate → List Coordinate → List Move → List Move × Board
  | 0, b, _, _, _, _, _, acc => (acc, b)
  | fuel + 1, b, fr, fc, pieceLocal, path, captured, acc =>
    let folded := capDirs side fuel fr fc pieceLocal path captured
      (directions pieceLocal) (false, acc, b)
    if folded.1 = false ∧ captured ≠ [] then
      let mv : Move := ⟨path.headD (fr, fc), path.getLastD (fr, fc), path, true, captured⟩
      if keyOf mv ∈ folded.2.1.map keyOf then (folded.2.1, folded.2.2)
      else (folded.2.1 ++ [mv], folded.2.2)
    else (folded.2.1, folded.2.2)
termination_by fuel => (fuel, 0, 0)

/-- The `for dr, dc in self._Directions(piece_local)` loop of
`try_captures`: hypothetically perform each valid jump, recurse, and
restore the three mutated cells. -/
def capDirs (side : Side) (fuel : Nat) (fr fc : Int) (pieceLocal : Cell)
    (path captured : List Coordinate) :
    List (Int × Int) → Bool × List Move × Board → Bool × List Move × Board
  | [], st => st
  | d :: ds, st =>
    let found := st.1
    let acc0 := st.2.1
    let bcur := st.2.2
    let mr := fr + d.1
    let mc := fc + d.2
    let lr := fr + 2 * d.1
    let lc := fc + 2 * d.2
    let st1 :=
      if inside lr lc = true ∧ bcur (lr, lc) = Cell.e ∧ inside mr mc = true ∧
          bcur (mr, mc) ∈ opponents side then
        if (mr, mc) ∈ captured then (found, acc0, bcur)
        else
          let orig := bcur (fr, fc)
          let b1 := setPiece bcur (fr, fc) Cell.e
          let capOrig := b1 (mr, mc)
          let b2 := setPiece b1 (mr, mc) Cell.e
          let landed := promoteAt side pieceLocal (lr, lc)
          let destOrig := b2 (lr, lc)
          let b3 := setPiece b2 (lr, lc) landed
          let rec1 := capStep side fuel b3 lr lc landed (path ++ [(lr, lc)])
            (captured ++ [(mr, mc)]) acc0
          let b5 := setPiece (setPiece (setPiece rec1.2 (fr, fc) orig) (mr, mc) capOrig)
            (lr, lc) destOrig
          (true, rec1.1, b5)
      else (found, acc0, bcur)
    capDirs side fuel fr fc pieceLocal path captured ds st1
termination_by ds => (fuel, 1, ds.length)
end

/-- The fuel given to `capStep`.  Each recursive call of `try_captures`
extends `captured` by a coordinate that is inside the 8x8 board and not
already captured, so the recursion depth never exceeds 64; 65 units of
fuel therefore make the embedding total without changing its behaviour. -/
def capFuel : Nat := 65

/-- `GameBoard._MovesFrom`: (captures, quiets) from one square, with the
final board threaded through the capture search. -/
def movesFromS (b : Board) (rc : Coordinate) (piece : Cell) (side : Side) :
    (List Move × List Move) × Board :=
  let quiets := (directions piece).foldl
    (fun qs d =>
      let nr := rc.1 + d.1
      let nc := rc.2 + d.2
      if inside nr nc = true ∧ b (nr, nc) = Cell.e then
        qs ++ [⟨rc, (nr, nc), [rc, (nr, nc)], false, []⟩]
      else qs) []
  let caps := capStep side capFuel b rc.1 rc.2 piece [rc] [] []
  ((caps.1, quiets), caps.2)

/-- The body of the `for r ... for c ...` scan of `AllLegalMoves` at one
cell: skip empty cells and cells not owned by `side`, otherwise extend the
(captures, quiets) accumulator with `_MovesFrom` of that cell. -/
def scanCell (side : Side) (acc : (List Move × List Move) × Board) (rc : Nat × Nat) :
    (List Move × List Move) × Board :=
  let bcur := acc.2
  let piece := bcur ((rc.1 : Int), (rc.2 : Int))
  if piece = Cell.e then acc
  else if side = Side.w ∧ ¬(piece = Cell.wm ∨ piece = Cell.wk) then acc
  else if side = Side.b ∧ ¬(piece = Cell.bm ∨ piece = Cell.bk) then acc
  else
    let res := movesFromS bcur ((rc.1 : Int), (rc.2 : Int)) piece side
    ((acc.1.1 ++ res.1.1, acc.1.2 ++ res.1.2), res.2)

/-- The 64 cells in the scan order of the nested
`for r in range(8): for c in range(8)` loops. -/
def boardCells : List (Nat × Nat) :=
  (List.range 8).flatMap fun r => (List.range 8).map fun c => (r, c)

/-- The 64-cell scan of `AllLegalMoves`, accumulating (captures, quiets)
and threading the board. -/
def scanMoves (b : Board) (side : Side) : (List Move × List Move) × Board :=
  boardCells.foldl (scanCell side) (([], []), b)

/-- `GameBoard.AllLegalMoves` with the threaded board. -/
def allLegalMovesS (b : Board) (side : Side) : List Move × Board :=
  let res := scanMoves b side
  (if res.1.1 = [] then res.1.2 else res.1.1, res.2)

/-- All capture moves found by the scan. -/
def capturesOf (b : Board) (side : Side) : List Move := (scanMoves b side).1.1

/-- All quiet moves found by the scan. -/
def quietsOf (b : Board) (side : Side) : List Move := (scanMoves b side).1.2

/-- `GameBoard.AllLegalMoves`, value part. -/
def allLegalMoves (b : Board) (side : Side) : List Move :=
  (allLegalMovesS b side).1

/-- `GameBoard.ApplyMove`. -/
def applyMove (b : Board) (mv : Move) : Board :=
  let piece := b mv.StartingMoveLocation
  let b1 := setPiece b mv.StartingMoveLocation Cell.e
  let b2 := mv.captured.foldl (fun bb q => setPiece bb q Cell.e) b1
  let piece2 :=
    if piece = Cell.wm ∧ mv.TargetingMoveLocation.1 = 0 then Cell.wk
    else if piece = Cell.bm ∧ mv.TargetingMoveLocation.1 = 7 then Cell.bk
    else piece
  setPiece b2 mv.TargetingMoveLocation piece2

/-- `GameBoard.IsTerminal`. -/
def isTerminal (b : Board) : Bool :=
  !hasPieces b Side.w || !hasPieces b Side.b ||
    (allLegalMoves b Side.w).isEmpty || (allLegalMoves b Side.b).isEmpty

/-!
### Search engine (`search_tool_box.py`)

`time.time()` is modelled as reading `clock i` at a threaded call index
`i`; elapsed-time arithmetic is carried out on these abstract integer
ticks.  The analytics record is threaded through every function exactly
where the source mutates `self.Analytics`.
-/

/-- `MoveAnalytics` (from `game_utilities.py`). -/
structure MoveAnalytics where
  NodesExpanded : Nat := 0
  MaxFringeSize : Nat := 0
  AlphaBetaCuts : Nat := 0
  OrderingComparisons : Nat := 0
  OrderingGains : Nat := 0
  ElapsedMs : Int := 0
deriving DecidableEq, Repr

/-- The search's threaded state: the next `time.time()` call index and the
current `self.Analytics`. -/
structure SState where
  idx : Nat
  an : MoveAnalytics
deriving DecidableEq, Repr

instance : Inhabited SState := ⟨⟨0, {}⟩⟩

/-- One `time.time()` call. -/
def tick (clock : Nat → Int) (s : SState) : Int × SState :=
  (clock s.idx, ⟨s.idx + 1, s.an⟩)

/-- One cell's contribution to `HeuristicScore`: black men count 3 plus
their row (rewarding advancement), black kings 5, white men minus 3 plus
their distance from row 0, white kings minus 5. -/
def heurCell (b : Board) (r : Nat) (v : Int) (c : Nat) : Int :=
  match b ((r : Int), (c : Int)) with
  | Cell.bm => v + (3 + (r : Int))
  | Cell.bk => v + 5
  | Cell.wm => v - (3 + (7 - (r : Int)))
  | Cell.wk => v - 5
  | Cell.e => v

/-- `HeuristicScore` (from `game_utilities.py`). -/
def heuristicScore (b : Board) : Int :=
  (List.range 8).foldl (fun v (r : Nat) => (List.range 8).foldl (heurCell b r) v) 0

/-- `SearchToolBox._OrderMoves`: when ordering is enabled, sort candidate
moves descending (stably) by the one-ply heuristic, negated for White. -/
def orderMoves (useOrd : Bool) (b : Board) (side : Side) (moves : List Move)
    (s : SState) : List Move × SState :=
  if useOrd = false then (moves, s) else
  let scored := moves.map fun m =>
    let cl := applyMove (clone b) m
    let sc := heuristicScore cl
    ((if side = Side.w then -sc else sc), m)
  let sorted := scored.mergeSort fun x y => decide (y.1 ≤ x.1)
  (sorted.map Prod.snd,
    ⟨s.idx, { s.an with OrderingComparisons := s.an.OrderingComparisons + (scored.length - 1) }⟩)

/-- Increment `NodesExpanded`. -/
def addNode (s : SState) : SState :=
  ⟨s.idx, { s.an with NodesExpanded := s.an.NodesExpanded + 1 }⟩

/-- Increment `AlphaBetaCuts`. -/
def addCut (s : SState) : SState :=
  ⟨s.idx, { s.an with AlphaBetaCuts := s.an.AlphaBetaCuts + 1 }⟩

/-- Increment `OrderingGains`. -/
def addGain (s : SState) : SState :=
  ⟨s.idx, { s.an with OrderingGains := s.an.OrderingGains + 1 }⟩

mutual
/-- `max_value` inside `_SearchDepth`, parametrized (for proof tractability
only) over the legal-move generator `lm` and terminal test `tp`; the
instantiation `maxValue` below plugs in `allLegalMoves` and `isTerminal`.
The `d == 0 or bd.IsTerminal()` test is rendered as a pattern match on the
depth (the source's `or` short-circuits and `IsTerminal` is effect-free). -/
def maxValueAux (clock : Nat → Int) (useAB useOrd : Bool)
    (lm : Board → Side → List Move) (tp : Board → Bool) (deadline : Int) :
    Nat → Board → Int → Int → SState → Int × SState
  | 0, bd, _, _, s =>
    let t := tick clock s
    if deadline < t.1 then (heuristicScore bd, t.2) else
    (heuristicScore bd, addNode t.2)
  | d + 1, bd, a, be, s =>
    let t := tick clock s
    if deadline < t.1 then (heuristicScore bd, t.2) else
    let s2 := addNode t.2
    if tp bd = true then (heuristicScore bd, s2) else
    let moves := lm bd Side.b
    if moves = [] then (heuristicScore bd, s2) else
    let ord := orderMoves useOrd bd Side.b moves s2
    maxLoopAux clock useAB useOrd lm tp deadline d bd ord.1 (-(10 ^ 9)) a be ord.2
termination_by d => (d, 0, 0)

/-- The `for m in ordered` loop of `max_value`, with the alpha-beta break;
`dm` is the one-ply-shallower depth passed to the recursive calls. -/
def maxLoopAux (clock : Nat → Int) (useAB useOrd : Bool)
    (lm : Board → Side → List Move) (tp : Board → Bool) (deadline : Int)
    (dm : Nat) (bd : Board) : List Move → Int → Int → Int → SState → Int × SState
  | [], best, _, _, s => (best, s)
  | m :: rest, best, a, be, s =>
    let cl := applyMove (clone bd) m
    let v := minValueAux clock useAB useOrd lm tp deadline dm cl a be s
    let best1 := max best v.1
    let a1 := max a best1
    if useAB = true ∧ be ≤ a1 then (best1, addCut v.2)
    else maxLoopAux clock useAB useOrd lm tp deadline dm bd rest best1 a1 be v.2
termination_by ms => (dm, 1, ms.length)

/-- `min_value` inside `_SearchDepth`, parametrized like `maxValueAux`. -/
def minValueAux (clock : Nat → Int) (useAB useOrd : Bool)
    (lm : Board → Side → List Move) (tp : Board → Bool) (deadline : Int) :
    Nat → Board → Int → Int → SState → Int × SState
  | 0, bd, _, _, s =>
    let t := tick clock s
    if deadline < t.1 then (heuristicScore bd, t.2) else
    (heuristicScore bd, addNode t.2)
  | d + 1, bd, a, be, s =>
    let t := tick clock s
    if deadline < t.1 then (heuristicScore bd, t.2) else
    let s2 := addNode t.2
    if tp bd = true then (heuristicScore bd, s2) else
    let moves := lm bd Side.w
    if moves = [] then (heuristicScore bd, s2) else
    let ord := orderMoves useOrd bd Side.w moves s2
    minLoopAux clock useAB useOrd lm tp deadline d bd ord.1 (10 ^ 9) a be ord.2
termination_by d => (d, 0, 0)

/-- The `for m in ordered` loop of `min_value`, with the alpha-beta break. -/
def minLoopAux (clock : Nat → Int) (useAB useOrd : Bool)
    (lm : Board → Side → List Move) (tp : Board → Bool) (deadline : Int)
    (dm : Nat) (bd : Board) : List Move → Int → Int → Int → SState → Int × SState
  | [], best, _, _, s => (best, s)
  | m :: rest, best, a, be, s =>
    let cl := applyMove (clone bd) m
    let v := maxValueAux clock useAB useOrd lm tp deadline dm cl a be s
    let best1 := min best v.1
    let be1 := min be best1
    if useAB = true ∧ be1 ≤ a then (best1, addCut v.2)
    else minLoopAux clock useAB useOrd lm tp deadline dm bd rest best1 a be1 v.2
termination_by ms => (dm, 1, ms.length)
end

/-- `max_value` with the real move generator and terminal test. -/
def maxValue (clock : Nat → Int) (useAB useOrd : Bool) (deadline : Int) :
    Nat → Board → Int → Int → SState → Int × SState :=
  maxValueAux clock useAB useOrd allLegalMoves isTerminal deadline

/-- `min_value` with the real move generator and terminal test. -/
def minValue (clock : Nat → Int) (useAB useOrd : Bool) (deadline : Int) :
    Nat → Board → Int → Int → SState → Int × SState :=
  minValueAux clock useAB useOrd allLegalMoves isTerminal deadline

/-- The root `for idx, m in enumerate(moves)` loop of `_SearchDepth`,
including the tie-break (strict improvement only), the OrderingGains
update, and the per-iteration deadline check with `break`. -/
def rootLoop (clock : Nat → Int) (useAB useOrd : Bool) (deadline : Int) (dm : Nat)
    (b : Board) (side : Side) (ms : List Move) (idx : Nat)
    (bestMove : Option Move) (bestScore alpha beta : Int) (s : SState) :
    Option Move × Int × SState :=
  match ms with
  | [] => (bestMove, bestScore, s)
  | m :: rest =>
    let cl := applyMove (clone b) m
    if side = Side.b then
      let v := minValue clock useAB useOrd deadline dm cl alpha beta s
      let upd :=
        if bestScore < v.1 then
          (some m, v.1, if 0 < idx then addGain v.2 else v.2)
        else (bestMove, bestScore, v.2)
      let alpha1 := max alpha upd.2.1
      let t := tick clock upd.2.2
      if deadline < t.1 then (upd.1, upd.2.1, t.2)
      else rootLoop clock useAB useOrd deadline dm b side rest (idx + 1)
        upd.1 upd.2.1 alpha1 beta t.2
    else
      let v := maxValue clock useAB useOrd deadline dm cl alpha beta s
      let upd :=
        if v.1 < bestScore then
          (some m, v.1, if 0 < idx then addGain v.2 else v.2)
        else (bestMove, bestScore, v.2)
      let beta1 := min beta upd.2.1
      let t := tick clock upd.2.2
      if deadline < t.1 then (upd.1, upd.2.1, t.2)
      else rootLoop clock useAB useOrd deadline dm b side rest (idx + 1)
        upd.1 upd.2.1 alpha beta1 t.2

/-- `SearchToolBox._SearchDepth`, threading the caller's board through its
`AllLegalMoves` call and the abstract clock through every `time.time()`. -/
def searchDepth (clock : Nat → Int) (useAB useOrd : Bool) (deadline : Int)
    (b : Board) (side : Side) (depth : Nat) (s : SState) :
    (Option Move × Option Int) × Board × SState :=
  let st := tick clock s
  let start := st.1
  let mvs := allLegalMovesS b side
  if mvs.1 = [] then ((none, none), mvs.2, st.2) else
  let ord := orderMoves useOrd mvs.2 side mvs.1 st.2
  let init : Int := if side = Side.b then -(10 ^ 9) else 10 ^ 9
  let r := rootLoop clock useAB useOrd deadline (depth - 1) mvs.2 side ord.1 0
    none init (-(10 ^ 9)) (10 ^ 9) ord.2
  let tEnd := tick clock r.2.2
  ((r.1, some r.2.1), mvs.2,
    ⟨tEnd.2.idx, { tEnd.2.an with ElapsedMs := tEnd.2.an.ElapsedMs + (tEnd.1 - start) * 1000 }⟩)

/-- The `for depth in range(1, max(1, PlyLimit) + 1)` iterative-deepening
loop of `ChooseMove`, iterating over the (remaining) list of depths. -/
def idLoop (clock : Nat → Int) (useAB useOrd : Bool) (deadline : Int)
    (b : Board) (side : Side) (depths : List Nat)
    (bestMove : Option Move) (bestScore : Option Int) (s : SState) :
    Option Move × Option Int × Board × SState :=
  match depths with
  | [] => (bestMove, bestScore, b, s)
  | d :: rest =>
    let r := searchDepth clock useAB useOrd deadline b side d s
    let t := tick clock r.2.2
    if deadline < t.1 then (bestMove, bestScore, r.2.1, t.2)
    else
      let keep := if r.1.1.isSome then (r.1.1, r.1.2) else (bestMove, bestScore)
      idLoop clock useAB useOrd deadline r.2.1 side rest keep.1 keep.2 t.2

/-- `SearchToolBox.ChooseMove`: reset analytics, set the deadline from the
current time plus `max(1, SecondsBudget)`, run iterative deepening, and
fall back to the first legal move (or none) when no depth produced one. -/
def chooseMove (clock : Nat → Int) (useAB useOrd : Bool) (b : Board) (side : Side)
    (SecondsBudget : Int) (PlyLimit : Nat) (s : SState) :
    Option Move × Board × SState :=
  let sR : SState := ⟨s.idx, {}⟩
  let t0 := tick clock sR
  let deadline := t0.1 + max 1 SecondsBudget
  let r := idLoop clock useAB useOrd deadline b side (List.range' 1 (max 1 PlyLimit))
    none none t0.2
  match r.1 with
  | some m => (some m, r.2.2.1, r.2.2.2)
  | none =>
    let mvs := allLegalMovesS r.2.2.1 side
    (mvs.1.head?, mvs.2, r.2.2.2)

/-! ### Concrete boards and moves used in the theorems below -/

/-- The board with no pieces. -/
def emptyBoard : Board := fun _ => Cell.e

/-- A lone black king in the middle of the board. -/
def blackKingBoard : Board := setPiece emptyBoard (4, 4) Cell.bk

/-- A white king at (2,2) surrounded by four black men placed so that a
4-jump capture chain returns to its own starting square. -/
def cycBoard : Board :=
  setPiece (setPiece (setPiece (setPiece (setPiece emptyBoard (2, 2) Cell.wk)
    (3, 3) Cell.bm) (5, 3) Cell.bm) (5, 1) Cell.bm) (3, 1) Cell.bm

/-- The 4-jump chain on `cycBoard` that ends on its own starting square. -/
def cycMove : Move :=
  ⟨(2, 2), (2, 2), [(2, 2), (4, 0), (6, 2), (4, 4), (2, 2)], true,
    [(3, 1), (5, 1), (5, 3), (3, 3)]⟩

/-- A board with a single mandatory capture for Black: a black man at
(2,3) can jump the white man at (3,4) and land on (4,5). -/
def capBoard : Board := setPiece (setPiece emptyBoard (2, 3) Cell.bm) (3, 4) Cell.wm

/-- The single capture move available to Black on `capBoard`. -/
def capMove : Move := ⟨(2, 3), (4, 5), [(2, 3), (4, 5)], true, [(3, 4)]⟩

/-! ### Predicates describing generated capture chains -/

/-- The board exactly as `try_captures` has it when it tests for further
jumps at the end of a chain: the start square and every captured square
cleared, and the (possibly promoted) mover placed at the chain head. -/
def hypotheticalBoard (b0 : Board) (start : Coordinate) (captured : List Coordinate)
    (pos : Coordinate) (pl : Cell) : Board :=
  fun x => if x = pos then pl else if x = start ∨ x ∈ captured then Cell.e else b0 x

/-- The jump test of `try_captures` for direction `d` from `pos` on board
`bh`: the landing square two steps away is inside and empty, the adjacent
square holds an opponent piece, and that square was not already captured
in this chain. -/
def jumpAvail (side : Side) (bh : Board) (captured : List Coordinate)
    (pos : Coordinate) (d : Int × Int) : Prop :=
  inside (pos.1 + 2 * d.1) (pos.2 + 2 * d.2) = true ∧
  bh (pos.1 + 2 * d.1, pos.2 + 2 * d.2) = Cell.e ∧
  inside (pos.1 + d.1) (pos.2 + d.2) = true ∧
  bh (pos.1 + d.1, pos.2 + d.2) ∈ opponents side ∧
  (pos.1 + d.1, pos.2 + d.2) ∉ captured

/-- The rank the moved piece holds at the end of the chain, after any
mid-chain promotions (the final `piece_local`). -/
def landedRank (b0 : Board) (side : Side) (mv : Move) : Cell :=
  chainRank side (b0 mv.StartingMoveLocation) (mv.path.drop 1)

/-- Maximality of a recorded chain: from its end coordinate, with the rank
the piece holds after any mid-chain promotion, no direction of that rank
admits a further jump over a not-yet-captured opponent piece into an empty
square (on the hypothetical end-of-chain board). -/
def MaximalChain (side : Side) (b0 : Board) (mv : Move) : Prop :=
  ∀ d ∈ directions (landedRank b0 side mv),
    ¬ jumpAvail side
      (hypotheticalBoard b0 mv.StartingMoveLocation mv.captured
        mv.TargetingMoveLocation (landedRank b0 side mv))
      mv.captured mv.TargetingMoveLocation d

/-- Invariant carried by the recursive capture search (proof bookkeeping,
relating the current call of `try_captures` to the pristine board `b0`). -/
structure CapInv (side : Side) (b0 : Board) (p0 : Cell) (start : Coordinate)
    (b : Board) (fr fc : Int) (pl : Cell)
    (path captured : List Coordinate) : Prop where
  path_ne : path ≠ []
  head_eq : path.headD (fr, fc) = start
  last_eq : path.getLastD (fr, fc) = (fr, fc)
  board_eq : b = hypotheticalBoard b0 start captured (fr, fc) pl
  rank_eq : pl = chainRank side p0 (path.drop 1)
  start_p : b0 start = p0
  cap_nodup : captured.Nodup
  cap_inside : ∀ q ∈ captured, inside q.1 q.2 = true
  path_par : ∀ q ∈ path, (q.1 - start.1) % 2 = 0 ∧ (q.2 - start.2) % 2 = 0
  cap_par : ∀ q ∈ captured, (q.1 - start.1) % 2 = 1 ∧ (q.2 - start.2) % 2 = 1
  path_orig : ∀ q ∈ path, q = start ∨ b0 q = Cell.e

/-- What is true of every capture move emitted by the chain search from
`start` on pristine board `b0`. -/
structure GoodCapture (side : Side) (b0 : Board) (start : Coordinate) (mv : Move) : Prop where
  start_eq : mv.StartingMoveLocation = start
  is_cap : mv.is_capture = true
  cap_ne : mv.captured ≠ []
  cap_nodup : mv.captured.Nodup
  path_ne : mv.path ≠ []
  path_head : mv.path.headD mv.StartingMoveLocation = mv.StartingMoveLocation
  path_last : mv.path.getLastD mv.StartingMoveLocation = mv.TargetingMoveLocation
  maximal : MaximalChain side b0 mv
  path_par : ∀ q ∈ mv.path,
    (q.1 - mv.StartingMoveLocation.1) % 2 = 0 ∧ (q.2 - mv.StartingMoveLocation.2) % 2 = 0
  cap_par : ∀ q ∈ mv.captured,
    (q.1 - mv.StartingMoveLocation.1) % 2 = 1 ∧ (q.2 - mv.StartingMoveLocation.2) % 2 = 1

/-! ### Light squares and reachability (claim C9) -/

/-- Every light square (row + column even) inside the board is empty. -/
def lightEmpty (b : Board) : Prop :=
  ∀ r c : Int, 0 ≤ r → r < 8 → 0 ≤ c → c < 8 → (r + c) % 2 = 0 → b (r, c) = Cell.e

/-- Board states reachable from the initial board by applying legal moves
(moves returned by `AllLegalMoves` for the side to move), sides
alternating starting from White. -/
inductive Reachable : Board → Side → Prop where
  | init : Reachable initialBoard Side.w
  | step (b : Board) (side : Side) (mv : Move) :
      Reachable b side → mv ∈ allLegalMoves b side →
      Reachable (applyMove b mv) (if side = Side.w then Side.b else Side.w)

/-! ### Pure minimax reference semantics (used to compare the search
modes of claim C7) -/

mutual
/-- Plain minimax value of a Black-to-move node, depth `d`, mirroring the
structure of `max_value` with the deadline never expiring and no pruning;
parametrized (for proof tractability only) over the move generator and
terminal test, instantiated below. -/
def mmaxValueAux (lm : Board → Side → List Move) (tp : Board → Bool)
    (d : Nat) (bd : Board) : Int :=
  if hd : d = 0 ∨ tp bd = true then heuristicScore bd else
  let moves := lm bd Side.b
  if moves = [] then heuristicScore bd
  else mmaxListAux lm tp (d - 1) bd moves
termination_by (d, 0, 0)

/-- Fold of `max` over the minimax values of the successors. -/
def mmaxListAux (lm : Board → Side → List Move) (tp : Board → Bool)
    (dm : Nat) (bd : Board) : List Move → Int
  | [] => -(10 ^ 9)
  | m :: rest => max (mminValueAux lm tp dm (applyMove (clone bd) m))
      (mmaxListAux lm tp dm bd rest)
termination_by ms => (dm, 1, ms.length)

/-- Plain minimax value of a White-to-move node. -/
def mminValueAux (lm : Board → Side → List Move) (tp : Board → Bool)
    (d : Nat) (bd : Board) : Int :=
  if hd : d = 0 ∨ tp bd = true then heuristicScore bd else
  let moves := lm bd Side.w
  if moves = [] then heuristicScore bd
  else mminListAux lm tp (d - 1) bd moves
termination_by (d, 0, 0)

/-- Fold of `min` over the minimax values of the successors. -/
def mminListAux (lm : Board → Side → List Move) (tp : Board → Bool)
    (dm : Nat) (bd : Board) : List Move → Int
  | [] => 10 ^ 9
  | m :: rest => min (mmaxValueAux lm tp dm (applyMove (clone bd) m))
      (mminListAux lm tp dm bd rest)
termination_by ms => (dm, 1, ms.length)
end

/-- Plain minimax value (Black to move) with the real generator and test. -/
def mmaxValue : Nat → Board → Int := mmaxValueAux allLegalMoves isTerminal

/-- Plain minimax value (White to move) with the real generator and test. -/
def mminValue : Nat → Board → Int := mminValueAux allLegalMoves isTerminal

/-- Successor `max`-fold with the real generator and test. -/
def mmaxList : Nat → Board → List Move → Int := mmaxListAux allLegalMoves isTerminal

/-- Successor `min`-fold with the real generator and test. -/
def mminList : Nat → Board → List Move → Int := mminListAux allLegalMoves isTerminal

/-! ### Basic lemmas about the board model -/

theorem setPiece_self (b : Board) (p : Coordinate) (v : Cell) : setPiece b p v p = v := by
  simp [setPiece]

theorem setPiece_other (b : Board) (p x : Coordinate) (v : Cell) (h : x ≠ p) :
    setPiece b p v x = b x := by
  simp [setPiece, h]

/-- Every direction the source ever produces has components in {-1, 1}. -/
theorem directions_units (pl : Cell) :
    ∀ d ∈ directions pl, (d.1 = -1 ∨ d.1 = 1) ∧ (d.2 = -1 ∨ d.2 = 1) := by
  cases pl <;> decide

/-! ### Restoration of the board by the capture-chain search (claim C4) -/

/-- A fold whose steps preserve the second component preserves it overall. -/
theorem foldl_preserve_snd {α β γ : Type} (f : β × γ → α → β × γ)
    (l : List α) (st : β × γ) (h : ∀ st x, x ∈ l → (f st x).2 = st.2) :
    (l.foldl f st).2 = st.2 := by
  induction l generalizing st with
  | nil => rfl
  | cons x xs ih =>
    rw [List.foldl_cons, ih _ (fun st y hy => h st y (List.mem_cons_of_mem _ hy)),
      h st x (List.mem_cons_self _ _)]

theorem capDirs_board (side : Side) (fuel : Nat)
    (hA : ∀ b fr fc pl path captured acc,
      (capStep side fuel b fr fc pl path captured acc).2 = b)
    (fr fc : Int) (pl : Cell) (path captured : List Coordinate) :
    ∀ (ds : List (Int × Int)),
      (∀ d ∈ ds, (d.1 = -1 ∨ d.1 = 1) ∧ (d.2 = -1 ∨ d.2 = 1)) →
      ∀ st, (capDirs side fuel fr fc pl path captured ds st).2.2 = st.2.2 := by
  intro ds
  induction ds with
  | nil => intro _ st; rw [capDirs]
  | cons d ds ih =>
    intro hds st
    rw [capDirs]
    rw [ih (fun e he => hds e (List.mem_cons_of_mem _ he))]
    have hd1 := (hds d (List.mem_cons_self _ _)).1
    split_ifs with h1 h2
    · rfl
    · have hfm : (fr, fc) ≠ (fr + d.1, fc + d.2) := by
        intro hx
        have := congrArg Prod.fst hx
        simp at this
        omega
      have hfl : (fr, fc) ≠ (fr + 2 * d.1, fc + 2 * d.2) := by
        intro hx
        have := congrArg Prod.fst hx
        simp at this
        omega
      have hml : (fr + d.1, fc + d.2) ≠ (fr + 2 * d.1, fc + 2 * d.2) := by
        intro hx
        have := congrArg Prod.fst hx
        simp at this
        omega
      simp only [hA]
      funext x
      simp only [setPiece]
      by_cases hc : x = (fr + 2 * d.1, fc + 2 * d.2)
      · simp [hc, hfm.symm, hfl, hml, Ne.symm hfl, Ne.symm hml]
      · by_cases hb : x = (fr + d.1, fc + d.2)
        · simp [hb, hc, Ne.symm hfm, hml]
        · by_cases ha : x = (fr, fc)
          · simp [ha, hb, hc, hfm, hfl]
          · simp [ha, hb, hc]
    · rfl

theorem capStep_board (side : Side) :
    ∀ (fuel : Nat) (b : Board) (fr fc : Int) (pl : Cell)
      (path captured : List Coordinate) (acc : List Move),
      (capStep side fuel b fr fc pl path captured acc).2 = b := by
  intro fuel
  induction fuel with
  | zero => intro b fr fc pl path captured acc; rw [capStep]
  | succ n ih =>
    intro b fr fc pl path captured acc
    rw [capStep]
    have h := capDirs_board side n ih fr fc pl path captured (directions pl)
      (directions_units pl) (false, acc, b)
    dsimp only
    split_ifs <;> simpa using h

theorem movesFromS_board (b : Board) (rc : Coordinate) (piece : Cell) (side : Side) :
    (movesFromS b rc piece side).2 = b := by
  simp [movesFromS, capStep_board]

theorem scanMoves_board (b : Board) (side : Side) : (scanMoves b side).2 = b := by
  unfold scanMoves
  apply foldl_preserve_snd
  intro st rc _
  unfold scanCell
  dsimp only
  split_ifs <;> simp [movesFromS_board]

theorem allLegalMovesS_board (b : Board) (side : Side) : (allLegalMovesS b side).2 = b := by
  simp [allLegalMovesS, scanMoves_board]

theorem searchDepth_board (clock : Nat → Int) (useAB useOrd : Bool) (deadline : Int)
    (b : Board) (side : Side) (depth : Nat) (s : SState) :
    (searchDepth clock useAB useOrd deadline b side depth s).2.1 = b := by
  unfold searchDepth
  simp only [allLegalMovesS_board]
  split <;> rfl

theorem idLoop_board (clock : Nat → Int) (useAB useOrd : Bool) (deadline : Int) (side : Side) :
    ∀ (depths : List Nat) (b : Board) (bm : Option Move) (bs : Option Int) (s : SState),
      (idLoop clock useAB useOrd deadline b side depths bm bs s).2.2.1 = b := by
  intro depths
  induction depths with
  | nil => intros; rfl
  | cons d rest ih =>
    intro b bm bs s
    rw [idLoop]
    dsimp only
    split_ifs <;> simp [ih, searchDepth_board]

theorem chooseMove_board (clock : Nat → Int) (useAB useOrd : Bool) (b : Board) (side : Side)
    (budget : Int) (ply : Nat) (s : SState) :
    (chooseMove clock useAB useOrd b side budget ply s).2.1 = b := by
  unfold chooseMove
  dsimp only
  split <;> simp [idLoop_board, allLegalMovesS_board]

/-! ### Claim theorems: C1, C4, C5 -/

set_option maxRecDepth 100000 in
unseal capStep capDirs in
/-- C1 (code bug): the spec says a King moves in all four diagonal
directions, and for the White king `_Directions` indeed returns all four;
but the Black-king list is literally `downs + [(-1, -1), (1, 1)]`, which
duplicates `(1, 1)` and omits `(-1, 1)`, so quiet-move and capture
generation for a Black king never considers the up-right diagonal: a lone
Black king at (4,4) has no generated move to (3,5). -/
theorem c1_black_king_direction_missing :
    directions Cell.wk = [(-1, -1), (-1, 1), (1, -1), (1, 1)] ∧
    directions Cell.bk = [(1, -1), (1, 1), (-1, -1), (1, 1)] ∧
    ((-1, 1) : Int × Int) ∉ directions Cell.bk ∧
    ((-1, 1) : Int × Int) ∈ directions Cell.wk ∧
    (∀ mv ∈ allLegalMoves blackKingBoard Side.b, mv.TargetingMoveLocation ≠ (3, 5)) := by
  decide

/-- C4: for every board, side, clock, search mode, time budget and ply
limit, `AllLegalMoves` returns the board exactly as it received it (the
exploratory mutation of the capture-chain search is always fully
restored), and `ChooseMove` leaves the caller's board unchanged (search
operates only on clones). -/
theorem c4_board_never_mutated (b : Board) (side : Side) (clock : Nat → Int)
    (useAB useOrd : Bool) (budget : Int) (ply : Nat) (s : SState) :
    (allLegalMovesS b side).2 = b ∧
    (chooseMove clock useAB useOrd b side budget ply s).2.1 = b :=
  ⟨allLegalMovesS_board b side, chooseMove_board clock useAB useOrd b side budget ply s⟩

/-- Clearing a fold of cells leaves a cleared cell empty. -/
theorem clearFold_eq_of (l : List Coordinate) (b0 : Board) (q : Coordinate)
    (h : b0 q = Cell.e) :
    (l.foldl (fun bb p => setPiece bb p Cell.e) b0) q = Cell.e := by
  induction l generalizing b0 with
  | nil => exact h
  | cons p ps ih =>
    rw [List.foldl_cons]
    apply ih
    by_cases hq : q = p
    · rw [hq, setPiece_self]
    · rw [setPiece_other _ _ _ _ hq, h]

theorem clearFold_mem (l : List Coordinate) (b0 : Board) (q : Coordinate) (h : q ∈ l) :
    (l.foldl (fun bb p => setPiece bb p Cell.e) b0) q = Cell.e := by
  induction l generalizing b0 with
  | nil => cases h
  | cons p ps ih =>
    rw [List.foldl_cons]
    rcases List.mem_cons.mp h with hq | hq
    · exact clearFold_eq_of _ _ _ (by rw [hq, setPiece_self])
    · exact ih _ hq

theorem clearFold_not_mem (l : List Coordinate) (b0 : Board) (q : Coordinate) (h : q ∉ l) :
    (l.foldl (fun bb p => setPiece bb p Cell.e) b0) q = b0 q := by
  induction l generalizing b0 with
  | nil => rfl
  | cons p ps ih =>
    rw [List.foldl_cons, ih _ (fun hq => h (List.mem_cons_of_mem _ hq)),
      setPiece_other _ _ _ _ (fun hq => h (by rw [hq]; exact List.mem_cons_self _ _))]

set_option maxRecDepth 100000 in
unseal capStep capDirs in
/-- C5 counterexample: `cycMove` is generated by `AllLegalMoves` on
`cycBoard`, its start cell holds a piece, and yet after `ApplyMove` the
start cell is not empty (the chain ends on its own starting square, where
the king is placed back), refuting the claim as stated. -/
theorem c5_counterexample :
    cycMove ∈ allLegalMoves cycBoard Side.w ∧
    pieceAt cycBoard cycMove.StartingMoveLocation ≠ Cell.e ∧
    pieceAt (applyMove cycBoard cycMove) cycMove.StartingMoveLocation ≠ Cell.e := by
  decide

/-- C5 (amended): for every board and move whose start cell holds a piece
and whose end coordinate is not among the captured coordinates, after
`ApplyMove` every captured cell is empty, the start cell is empty whenever
it differs from the end cell, and the end cell holds the moved piece,
promoted to a king exactly when it was a White man ending on row 0 or a
Black man ending on row 7, and with its rank preserved otherwise. -/
theorem c5_applyMove_spec (b : Board) (mv : Move)
    (hpiece : b mv.StartingMoveLocation ≠ Cell.e)
    (hend : mv.TargetingMoveLocation ∉ mv.captured) :
    (∀ q ∈ mv.captured, applyMove b mv q = Cell.e) ∧
    (mv.StartingMoveLocation ≠ mv.TargetingMoveLocation →
      applyMove b mv mv.StartingMoveLocation = Cell.e) ∧
    applyMove b mv mv.TargetingMoveLocation =
      (if b mv.StartingMoveLocation = Cell.wm ∧ mv.TargetingMoveLocation.1 = 0 then Cell.wk
       else if b mv.StartingMoveLocation = Cell.bm ∧ mv.TargetingMoveLocation.1 = 7 then Cell.bk
       else b mv.StartingMoveLocation) := by
  unfold applyMove
  refine ⟨?_, ?_, ?_⟩
  · intro q hq
    rw [setPiece_other _ _ _ _ (fun he => hend (by rw [← he]; exact hq))]
    exact clearFold_mem _ _ _ hq
  · intro hne
    rw [setPiece_other _ _ _ _ hne]
    by_cases hc : mv.StartingMoveLocation ∈ mv.captured
    · exact clearFold_mem _ _ _ hc
    · rw [clearFold_not_mem _ _ _ hc, setPiece_self]
  · rw [setPiece_self]

/-- Witness for the amended C5 at a concrete input: White's quiet opening
move from (5,0) to (4,1) on the initial board. -/
theorem c5_witness :
    initialBoard ((5 : Int), (0 : Int)) ≠ Cell.e ∧
    (((4 : Int), (1 : Int)) : Coordinate) ∉ ([] : List Coordinate) ∧
    ((∀ q ∈ ([] : List Coordinate),
        applyMove initialBoard ⟨(5, 0), (4, 1), [(5, 0), (4, 1)], false, []⟩ q = Cell.e) ∧
      ((((5 : Int), (0 : Int)) : Coordinate) ≠ ((4 : Int), (1 : Int)) →
        applyMove initialBoard ⟨(5, 0), (4, 1), [(5, 0), (4, 1)], false, []⟩ (5, 0) = Cell.e) ∧
      applyMove initialBoard ⟨(5, 0), (4, 1), [(5, 0), (4, 1)], false, []⟩ (4, 1) =
        (if initialBoard (5, 0) = Cell.wm ∧ (1 : Int) = 0 then Cell.wk
         else if initialBoard (5, 0) = Cell.bm ∧ (1 : Int) = 7 then Cell.bk
         else initialBoard (5, 0))) :=
  ⟨by decide, by decide,
    c5_applyMove_spec initialBoard ⟨(5, 0), (4, 1), [(5, 0), (4, 1)], false, []⟩
      (by decide) (by decide)⟩

/-! ### Emission invariants of the capture-chain search -/

/-- A fold preserves any invariant its steps preserve. -/
theorem foldl_inv {α β : Type} (f : β → α → β) (I : β → Prop) (l : List α) (st : β)
    (hst : I st) (hf : ∀ st x, x ∈ l → I st → I (f st x)) : I (l.foldl f st) := by
  induction l generalizing st with
  | nil => exact hst
  | cons x xs ih =>
    exact ih _ (hf st x (List.mem_cons_self _ _) hst)
      (fun st y hy => hf st y (List.mem_cons_of_mem _ hy))

/-- The three jump cells are pairwise distinct. -/
theorem jump_cells_distinct (fr fc : Int) (d : Int × Int) (h1 : d.1 = -1 ∨ d.1 = 1) :
    ((fr, fc) : Coordinate) ≠ (fr + d.1, fc + d.2) ∧
    ((fr, fc) : Coordinate) ≠ (fr + 2 * d.1, fc + 2 * d.2) ∧
    ((fr + d.1, fc + d.2) : Coordinate) ≠ (fr + 2 * d.1, fc + 2 * d.2) := by
  refine ⟨fun hx => ?_, fun hx => ?_, fun hx => ?_⟩ <;>
    · have := congrArg Prod.fst hx
      simp at this
      omega

/-- Restoring the three mutated cells of a jump recovers the original board. -/
theorem restore_three (bcur : Board) (A B C : Coordinate) (landed : Cell) (b4 : Board)
    (hrec : b4 = setPiece (setPiece (setPiece bcur A Cell.e) B Cell.e) C landed)
    (hAB : A ≠ B) (hAC : A ≠ C) (hBC : B ≠ C) :
    setPiece (setPiece (setPiece b4 A (bcur A)) B ((setPiece bcur A Cell.e) B)) C
      ((setPiece (setPiece bcur A Cell.e) B Cell.e) C) = bcur := by
  subst hrec
  funext x
  simp only [setPiece]
  by_cases hc : x = C
  · simp [hc, Ne.symm hAC, Ne.symm hBC]
  · by_cases hb : x = B
    · simp [hb, hc, Ne.symm hAB, hBC]
    · by_cases ha : x = A
      · simp [ha, hb, hc, hAC, hAB]
      · simp [ha, hb, hc]

/-- Once the `found` flag is set it stays set. -/
theorem capDirs_found_mono (side : Side) (fuel : Nat) (fr fc : Int) (pl : Cell)
    (path captured : List Coordinate) :
    ∀ (ds : List (Int × Int)) (st : Bool × List Move × Board), st.1 = true →
      (capDirs side fuel fr fc pl path captured ds st).1 = true := by
  intro ds
  induction ds with
  | nil => intro st h; rw [capDirs]; exact h
  | cons d ds ih =>
    intro st h
    rw [capDirs]
    dsimp only
    split_ifs <;> exact ih _ (by simp [h])

/-- If the whole direction loop finished with `found = false`, it left the
state untouched and no direction passes the jump test. -/
theorem capDirs_false (side : Side) (fuel : Nat) (fr fc : Int) (pl : Cell)
    (path captured : List Coordinate) :
    ∀ (ds : List (Int × Int)) (st : Bool × List Move × Board),
      (capDirs side fuel fr fc pl path captured ds st).1 = false →
      capDirs side fuel fr fc pl path captured ds st = st ∧
      ∀ d ∈ ds,
        ¬((inside (fr + 2 * d.1) (fc + 2 * d.2) = true ∧
            st.2.2 (fr + 2 * d.1, fc + 2 * d.2) = Cell.e ∧
            inside (fr + d.1) (fc + d.2) = true ∧
            st.2.2 (fr + d.1, fc + d.2) ∈ opponents side) ∧
          (fr + d.1, fc + d.2) ∉ captured) := by
  intro ds
  induction ds with
  | nil =>
    intro st h
    rw [capDirs]
    exact ⟨rfl, by simp⟩
  | cons d ds ih =>
    intro st hres
    rw [capDirs] at hres ⊢
    dsimp only at hres ⊢
    by_cases hcond : inside (fr + 2 * d.1) (fc + 2 * d.2) = true ∧
        st.2.2 (fr + 2 * d.1, fc + 2 * d.2) = Cell.e ∧
        inside (fr + d.1) (fc + d.2) = true ∧
        st.2.2 (fr + d.1, fc + d.2) ∈ opponents side
    · by_cases hmem : ((fr + d.1, fc + d.2) : Coordinate) ∈ captured
      · rw [if_pos hcond, if_pos hmem] at hres ⊢
        obtain ⟨h1, h2⟩ := ih _ hres
        refine ⟨h1, ?_⟩
        intro e he
        rcases List.mem_cons.mp he with rfl | he'
        · exact fun hx => hx.2 hmem
        · exact h2 e he'
      · rw [if_pos hcond, if_neg hmem] at hres
        rw [capDirs_found_mono side fuel fr fc pl path captured ds _ rfl] at hres
        simp at hres
    · rw [if_neg hcond] at hres ⊢
      obtain ⟨h1, h2⟩ := ih _ hres
      refine ⟨h1, ?_⟩
      intro e he
      rcases List.mem_cons.mp he with rfl | he'
      · exact fun hx => hcond hx.1
      · exact h2 e he'

theorem headD_of_ne_nil {α : Type} (l : List α) (x y : α) (h : l ≠ []) :
    l.headD x = l.headD y := by
  cases l with
  | nil => cases h rfl
  | cons a t => rfl

theorem headD_append_left {α : Type} (l l' : List α) (x : α) (h : l ≠ []) :
    (l ++ l').headD x = l.headD x := by
  cases l with
  | nil => cases h rfl
  | cons a t => rfl

theorem getLastD_mem_of_ne_nil {α : Type} (l : List α) (x : α) (h : l ≠ []) :
    l.getLastD x ∈ l := by
  induction l generalizing x with
  | nil => cases h rfl
  | cons a t ih =>
    cases t with
    | nil => simp [List.getLastD]
    | cons b u => exact List.mem_cons_of_mem _ (ih x (by simp))

theorem getLastD_of_ne_nil {α : Type} (l : List α) (x y : α) (h : l ≠ []) :
    l.getLastD x = l.getLastD y := by
  induction l generalizing x y with
  | nil => cases h rfl
  | cons a t ih =>
    cases t with
    | nil => rfl
    | cons b u => exact ih x y (by simp)

theorem getLastD_concat {α : Type} (l : List α) (a x : α) :
    (l ++ [a]).getLastD x = a := by
  induction l generalizing x with
  | nil => rfl
  | cons b t ih => simpa [List.getLastD] using ih x

theorem drop_one_append {α : Type} (l : List α) (l' : List α) (h : l ≠ []) :
    (l ++ l').drop 1 = l.drop 1 ++ l' := by
  cases l with
  | nil => cases h rfl
  | cons a t => simp

/-- Performing the three cell writes of a jump on the hypothetical chain
board yields the hypothetical board of the extended chain. -/
theorem hypotheticalBoard_jump (b0 : Board) (start : Coordinate)
    (captured : List Coordinate) (fr fc : Int) (pl landed : Cell) (d : Int × Int)
    (hd1 : d.1 = -1 ∨ d.1 = 1)
    (hApath : ((fr, fc) : Coordinate) = start ∨ b0 (fr, fc) = Cell.e) :
    setPiece (setPiece (setPiece (hypotheticalBoard b0 start captured (fr, fc) pl)
        (fr, fc) Cell.e) (fr + d.1, fc + d.2) Cell.e) (fr + 2 * d.1, fc + 2 * d.2) landed =
      hypotheticalBoard b0 start (captured ++ [(fr + d.1, fc + d.2)])
        (fr + 2 * d.1, fc + 2 * d.2) landed := by
  obtain ⟨hAB, hAC, hBC⟩ := jump_cells_distinct fr fc d hd1
  funext x
  simp only [setPiece, hypotheticalBoard]
  by_cases hc : x = (fr + 2 * d.1, fc + 2 * d.2)
  · simp [hc]
  · rw [if_neg hc, if_neg hc]
    by_cases hb : x = (fr + d.1, fc + d.2)
    · rw [if_pos hb, if_pos (by right; simp [hb])]
    · rw [if_neg hb]
      by_cases ha : x = (fr, fc)
      · rw [if_pos ha]
        by_cases hsc : x = start ∨ x ∈ captured ++ [(fr + d.1, fc + d.2)]
        · rw [if_pos hsc]
        · rw [if_neg hsc]
          rcases hApath with h | h
          · exact absurd (Or.inl (ha.trans h)) hsc
          · rw [ha, h]
      · rw [if_neg ha]
        have hiff : (x = start ∨ x ∈ captured ++ [(fr + d.1, fc + d.2)]) ↔
            (x = start ∨ x ∈ captured) := by
          simp [List.mem_append, hb]
        rw [if_neg ha]
        simp only [hiff]


theorem chainRank_concat (side : Side) (p0 : Cell) (l : List Coordinate) (c : Coordinate) :
    chainRank side p0 (l ++ [c]) = promoteAt side (chainRank side p0 l) c := by
  simp [chainRank, List.foldl_append]

theorem capStep_emits (side : Side) (b0 : Board) (p0 : Cell) (start : Coordinate) :
    ∀ (fuel : Nat) (b : Board) (fr fc : Int) (pl : Cell)
      (path captured : List Coordinate) (acc : List Move),
      CapInv side b0 p0 start b fr fc pl path captured →
      ∀ mv ∈ (capStep side fuel b fr fc pl path captured acc).1,
        mv ∈ acc ∨ GoodCapture side b0 start mv := by
  intro fuel
  induction fuel with
  | zero =>
    intro b fr fc pl path captured acc _ mv hmv
    rw [capStep] at hmv
    exact Or.inl hmv
  | succ n ih =>
    intro b fr fc pl path captured acc hinv mv hmv
    have hdirs : ∀ (ds : List (Int × Int)), (∀ d ∈ ds, d ∈ directions pl) →
        ∀ (st : Bool × List Move × Board), st.2.2 = b →
        (∀ m ∈ st.2.1, m ∈ acc ∨ GoodCapture side b0 start m) →
        ∀ m ∈ (capDirs side n fr fc pl path captured ds st).2.1,
            m ∈ acc ∨ GoodCapture side b0 start m := by
      intro ds
      induction ds with
      | nil =>
        intro _ st _ hst m hm
        rw [capDirs] at hm
        exact hst m hm
      | cons d ds ihd =>
        intro hmemd st hb2 hst m hm
        rw [capDirs] at hm
        dsimp only at hm
        by_cases hcond : inside (fr + 2 * d.1) (fc + 2 * d.2) = true ∧
            st.2.2 (fr + 2 * d.1, fc + 2 * d.2) = Cell.e ∧
            inside (fr + d.1) (fc + d.2) = true ∧
            st.2.2 (fr + d.1, fc + d.2) ∈ opponents side
        · by_cases hin : ((fr + d.1, fc + d.2) : Coordinate) ∈ captured
          · rw [if_pos hcond, if_pos hin] at hm
            exact ihd (fun e he => hmemd e (List.mem_cons_of_mem _ he)) st hb2 hst m hm
          · rw [if_pos hcond, if_neg hin] at hm
            have hdu := directions_units pl d (hmemd d (List.mem_cons_self _ _))
            obtain ⟨hAB, hAC, hBC⟩ := jump_cells_distinct fr fc d hdu.1
            have hst2 : st.2.2 = hypotheticalBoard b0 start captured (fr, fc) pl := by
              rw [hb2, hinv.board_eq]
            have hAmem : ((fr, fc) : Coordinate) ∈ path := by
              rw [← hinv.last_eq]
              exact getLastD_mem_of_ne_nil _ _ hinv.path_ne
            have hApar := hinv.path_par _ hAmem
            have hinv' : CapInv side b0 p0 start
                (setPiece (setPiece (setPiece st.2.2 (fr, fc) Cell.e)
                  (fr + d.1, fc + d.2) Cell.e) (fr + 2 * d.1, fc + 2 * d.2)
                  (promoteAt side pl (fr + 2 * d.1, fc + 2 * d.2)))
                (fr + 2 * d.1) (fc + 2 * d.2)
                (promoteAt side pl (fr + 2 * d.1, fc + 2 * d.2))
                (path ++ [(fr + 2 * d.1, fc + 2 * d.2)])
                (captured ++ [(fr + d.1, fc + d.2)]) := by
              constructor
              · simp
              · rw [headD_append_left _ _ _ hinv.path_ne,
                  headD_of_ne_nil path _ (fr, fc) hinv.path_ne]
                exact hinv.head_eq
              · exact getLastD_concat _ _ _
              · rw [hst2]
                exact hypotheticalBoard_jump b0 start captured fr fc pl _ d hdu.1
                  (hinv.path_orig _ hAmem)
              · rw [drop_one_append _ _ hinv.path_ne, chainRank_concat, ← hinv.rank_eq]
              · exact hinv.start_p
              · simp [List.nodup_append, hinv.cap_nodup, hin]
              · intro q hq
                rcases List.mem_append.mp hq with hq | hq
                · exact hinv.cap_inside q hq
                · rw [List.mem_singleton.mp hq]
                  exact hcond.2.2.1
              · intro q hq
                rcases List.mem_append.mp hq with hq | hq
                · exact hinv.path_par q hq
                · rw [List.mem_singleton.mp hq]
                  constructor <;> [skip; skip] <;> dsimp only <;> omega
              · intro q hq
                rcases List.mem_append.mp hq with hq | hq
                · exact hinv.cap_par q hq
                · rw [List.mem_singleton.mp hq]
                  rcases hdu.1 with h1 | h1 <;> rcases hdu.2 with h2 | h2 <;>
                    constructor <;> dsimp only <;> omega
              · intro q hq
                rcases List.mem_append.mp hq with hq | hq
                · exact hinv.path_orig q hq
                · rw [List.mem_singleton.mp hq]
                  have hce : st.2.2 (fr + 2 * d.1, fc + 2 * d.2) = Cell.e := hcond.2.1
                  rw [hst2] at hce
                  unfold hypotheticalBoard at hce
                  rw [if_neg (Ne.symm hAC)] at hce
                  by_cases hs : ((fr + 2 * d.1, fc + 2 * d.2) : Coordinate) = start
                  · exact Or.inl hs
                  · by_cases hc2 : ((fr + 2 * d.1, fc + 2 * d.2) : Coordinate) ∈ captured
                    · have := hinv.cap_par _ hc2
                      dsimp only at this
                      omega
                    · rw [if_neg (by simp [hs, hc2])] at hce
                      exact Or.inr hce
            have hb5 : setPiece (setPiece (setPiece
                (capStep side n (setPiece (setPiece (setPiece st.2.2 (fr, fc) Cell.e)
                    (fr + d.1, fc + d.2) Cell.e) (fr + 2 * d.1, fc + 2 * d.2)
                    (promoteAt side pl (fr + 2 * d.1, fc + 2 * d.2)))
                  (fr + 2 * d.1) (fc + 2 * d.2)
                  (promoteAt side pl (fr + 2 * d.1, fc + 2 * d.2))
                  (path ++ [(fr + 2 * d.1, fc + 2 * d.2)])
                  (captured ++ [(fr + d.1, fc + d.2)]) st.2.1).2
                (fr, fc) (st.2.2 (fr, fc)))
                (fr + d.1, fc + d.2) ((setPiece st.2.2 (fr, fc) Cell.e) (fr + d.1, fc + d.2)))
                (fr + 2 * d.1, fc + 2 * d.2)
                ((setPiece (setPiece st.2.2 (fr, fc) Cell.e) (fr + d.1, fc + d.2) Cell.e)
                  (fr + 2 * d.1, fc + 2 * d.2)) = st.2.2 :=
              restore_three st.2.2 (fr, fc) (fr + d.1, fc + d.2)
                (fr + 2 * d.1, fc + 2 * d.2) _ _ (capStep_board side n _ _ _ _ _ _ _)
                hAB hAC hBC
            refine ihd (fun e he => hmemd e (List.mem_cons_of_mem _ he))
              _ (hb5.trans hb2) ?_ m hm
            intro m2 hm2
            rcases ih _ _ _ _ _ _ st.2.1 hinv' m2 hm2 with hmem2 | hgood
            · exact hst m2 hmem2
            · exact Or.inr hgood
        · rw [if_neg hcond] at hm
          exact ihd (fun e he => hmemd e (List.mem_cons_of_mem _ he)) st hb2 hst m hm
    rw [capStep] at hmv
    dsimp only at hmv
    by_cases hstop : (capDirs side n fr fc pl path captured (directions pl)
        (false, acc, b)).1 = false ∧ captured ≠ []
    · rw [if_pos hstop] at hmv
      by_cases hseen : keyOf ⟨path.headD (fr, fc), path.getLastD (fr, fc), path, true, captured⟩
          ∈ (capDirs side n fr fc pl path captured (directions pl) (false, acc, b)).2.1.map keyOf
      · rw [if_pos hseen] at hmv
        exact hdirs (directions pl) (fun d hd => hd) _ rfl (fun m hm => Or.inl hm) mv hmv
      · rw [if_neg hseen] at hmv
        rcases List.mem_append.mp hmv with hmv1 | hmv2
        · exact hdirs (directions pl) (fun d hd => hd) _ rfl (fun m hm => Or.inl hm) mv hmv1
        · right
          have hmvEq := List.mem_singleton.mp hmv2
          subst hmvEq
          obtain ⟨hCD, hforall⟩ := capDirs_false side n fr fc pl path captured
            (directions pl) (false, acc, b) hstop.1
          have hland : landedRank b0 side
              ⟨path.headD (fr, fc), path.getLastD (fr, fc), path, true, captured⟩ = pl := by
            unfold landedRank
            dsimp only
            rw [headD_of_ne_nil path _ (fr, fc) hinv.path_ne, hinv.head_eq, hinv.start_p,
              ← hinv.rank_eq]
          constructor
          · exact hinv.head_eq
          · rfl
          · exact hstop.2
          · exact hinv.cap_nodup
          · exact hinv.path_ne
          · dsimp only
            rw [headD_of_ne_nil path _ (fr, fc) hinv.path_ne]
          · dsimp only
            rw [getLastD_of_ne_nil path _ (fr, fc) hinv.path_ne]
          · intro d hd
            rw [hland] at hd
            intro hja
            apply hforall d hd
            unfold jumpAvail at hja
            rw [hland] at hja
            dsimp only at hja
            rw [hinv.head_eq, hinv.last_eq, ← hinv.board_eq] at hja
            dsimp only at hja
            exact ⟨⟨hja.1, hja.2.1, hja.2.2.1, hja.2.2.2.1⟩, hja.2.2.2.2⟩
          · dsimp only
            rw [headD_of_ne_nil path _ (fr, fc) hinv.path_ne, hinv.head_eq]
            exact hinv.path_par
          · dsimp only
            rw [headD_of_ne_nil path _ (fr, fc) hinv.path_ne, hinv.head_eq]
            exact hinv.cap_par
    · rw [if_neg hstop] at hmv
      exact hdirs (directions pl) (fun d hd => hd) _ rfl (fun m hm => Or.inl hm) mv hmv

/-- Capture moves produced by `_MovesFrom` from an occupied square satisfy
all the `GoodCapture` properties. -/
theorem movesFromS_caps (b : Board) (rc : Coordinate) (piece : Cell) (side : Side)
    (hb : b rc = piece) :
    ∀ mv ∈ (movesFromS b rc piece side).1.1, GoodCapture side b rc mv := by
  intro mv hmv
  have hinv : CapInv side b piece rc b rc.1 rc.2 piece [rc] [] := by
    constructor
    · simp
    · rfl
    · rfl
    · funext x
      unfold hypotheticalBoard
      by_cases hx : x = rc
      · rw [if_pos (by simpa using hx), hx, hb]
      · rw [if_neg (by simpa using hx), if_neg (by simp [hx])]
    · rfl
    · exact hb
    · simp
    · simp
    · intro q hq
      rw [List.mem_singleton.mp hq]
      simp
    · simp
    · intro q hq
      exact Or.inl (List.mem_singleton.mp hq)
  have := capStep_emits side b piece rc capFuel b rc.1 rc.2 piece [rc] [] [] hinv mv
    (by simpa [movesFromS] using hmv)
  simpa using this

/-- Quiet moves produced by `_MovesFrom`: one diagonal step from the
square, no capture. -/
theorem movesFromS_quiets (b : Board) (rc : Coordinate) (piece : Cell) (side : Side) :
    ∀ mv ∈ (movesFromS b rc piece side).1.2,
      mv.StartingMoveLocation = rc ∧ mv.is_capture = false ∧ mv.captured = [] ∧
      ∃ d ∈ directions piece,
        mv.TargetingMoveLocation = (rc.1 + d.1, rc.2 + d.2) := by
  unfold movesFromS
  dsimp only
  refine foldl_inv _
    (fun (qs : List Move) => ∀ mv ∈ qs,
      mv.StartingMoveLocation = rc ∧ mv.is_capture = false ∧ mv.captured = [] ∧
      ∃ d ∈ directions piece, mv.TargetingMoveLocation = (rc.1 + d.1, rc.2 + d.2))
    _ _ ?_ ?_
  · simp
  · intro qs d hd hqs mv hmv
    split_ifs at hmv
    · rcases List.mem_append.mp hmv with hmv1 | hmv2
      · exact hqs mv hmv1
      · rw [List.mem_singleton.mp hmv2]
        exact ⟨rfl, rfl, rfl, d, hd, rfl⟩
    · exact hqs mv hmv

/-- Every move produced by the 64-cell scan starts on an occupied in-range
square; capture moves satisfy `GoodCapture`, quiet moves are one diagonal
step of the piece's direction set. -/
theorem scanMoves_spec (b : Board) (side : Side) :
    (∀ mv ∈ (scanMoves b side).1.1, ∃ rc : Coordinate,
        b rc ≠ Cell.e ∧ inside rc.1 rc.2 = true ∧ GoodCapture side b rc mv) ∧
    (∀ mv ∈ (scanMoves b side).1.2,
        b mv.StartingMoveLocation ≠ Cell.e ∧
        inside mv.StartingMoveLocation.1 mv.StartingMoveLocation.2 = true ∧
        mv.is_capture = false ∧ mv.captured = [] ∧
        ∃ d ∈ directions (b mv.StartingMoveLocation),
          mv.TargetingMoveLocation =
            (mv.StartingMoveLocation.1 + d.1, mv.StartingMoveLocation.2 + d.2)) := by
  have hbnd : ∀ p ∈ boardCells, p.1 < 8 ∧ p.2 < 8 := by
    intro p hp
    simp only [boardCells, List.mem_flatMap, List.mem_map, List.mem_range] at hp
    obtain ⟨r, hr, c, hc, rfl⟩ := hp
    exact ⟨hr, hc⟩
  unfold scanMoves
  have main := foldl_inv (scanCell side)
    (fun (acc : (List Move × List Move) × Board) =>
      (∀ mv ∈ acc.1.1, ∃ rc : Coordinate,
        b rc ≠ Cell.e ∧ inside rc.1 rc.2 = true ∧ GoodCapture side b rc mv) ∧
      (∀ mv ∈ acc.1.2,
        b mv.StartingMoveLocation ≠ Cell.e ∧
        inside mv.StartingMoveLocation.1 mv.StartingMoveLocation.2 = true ∧
        mv.is_capture = false ∧ mv.captured = [] ∧
        ∃ d ∈ directions (b mv.StartingMoveLocation),
          mv.TargetingMoveLocation =
            (mv.StartingMoveLocation.1 + d.1, mv.StartingMoveLocation.2 + d.2)) ∧
      acc.2 = b)
    boardCells (([], []), b) ⟨by simp, by simp, rfl⟩ ?_
  · exact ⟨main.1, main.2.1⟩
  intro acc2 rc hrc hacc2
  unfold scanCell
  dsimp only
  split_ifs with h1 h2 h3
  · exact hacc2
  · exact hacc2
  · exact hacc2
  · obtain ⟨hcap, hq, hb2⟩ := hacc2
    have hrcv : acc2.2 ((rc.1 : Int), (rc.2 : Int)) = b ((rc.1 : Int), (rc.2 : Int)) := by
      rw [hb2]
    have hrange : inside (rc.1 : Int) (rc.2 : Int) = true := by
      obtain ⟨hr8, hc8⟩ := hbnd rc hrc
      simp only [inside, decide_eq_true_eq]
      omega
    refine ⟨?_, ?_, ?_⟩
    · intro mv hmv
      rcases List.mem_append.mp hmv with hmv1 | hmv2
      · exact hcap mv hmv1
      · refine ⟨((rc.1 : Int), (rc.2 : Int)), ?_, hrange, ?_⟩
        · rw [← hrcv]; exact h1
        · have := movesFromS_caps acc2.2 ((rc.1 : Int), (rc.2 : Int)) _ side rfl mv hmv2
          rwa [hb2] at this
    · intro mv hmv
      rcases List.mem_append.mp hmv with hmv1 | hmv2
      · exact hq mv hmv1
      · obtain ⟨hst, hic, hcapt, d, hd, htgt⟩ :=
          movesFromS_quiets acc2.2 ((rc.1 : Int), (rc.2 : Int)) _ side mv hmv2
        rw [hst]
        refine ⟨by rw [← hrcv]; exact h1, hrange, hic, hcapt, d, ?_, htgt⟩
        rwa [← hrcv]
    · rw [movesFromS_board, hb2]

/-- C2: for every board and side, if any capture move exists (the union of
capture moves over all the side's pieces is non-empty), `AllLegalMoves`
returns exactly the capture moves, each flagged `is_capture` with a
non-empty captured list; otherwise it returns exactly the quiet moves; and
for a side with no pieces it returns an empty sequence. -/
theorem c2_mandatory_capture (b : Board) (side : Side) :
    (capturesOf b side ≠ [] →
      allLegalMoves b side = capturesOf b side ∧
      ∀ mv ∈ allLegalMoves b side, mv.is_capture = true ∧ mv.captured ≠ []) ∧
    (capturesOf b side = [] → allLegalMoves b side = quietsOf b side) ∧
    (hasPieces b side = false → allLegalMoves b side = []) := by
  refine ⟨?_, ?_, ?_⟩
  · intro hne
    unfold capturesOf at hne
    have hsel : allLegalMoves b side = capturesOf b side := by
      unfold allLegalMoves allLegalMovesS capturesOf
      dsimp only
      rw [if_neg hne]
    refine ⟨hsel, ?_⟩
    rw [hsel]
    intro mv hmv
    obtain ⟨rc, _, _, hg⟩ := (scanMoves_spec b side).1 mv hmv
    exact ⟨hg.is_cap, hg.cap_ne⟩
  · intro he
    unfold capturesOf at he
    unfold allLegalMoves allLegalMovesS quietsOf
    dsimp only
    rw [if_pos he]
  · intro hnp
    have hcells : ∀ p ∈ boardCells, b ((p.1 : Int), (p.2 : Int)) ∉ targets side := by
      intro p hp
      simp only [boardCells, List.mem_flatMap, List.mem_map, List.mem_range] at hp
      obtain ⟨r, hr, c, hc, rfl⟩ := hp
      simp only [hasPieces, List.any_eq_false, List.any_eq_true, List.mem_range,
        decide_eq_true_eq, not_exists, not_and] at hnp
      exact hnp r hr c hc
    have hscan : scanMoves b side = (([], []), b) := by
      unfold scanMoves
      refine foldl_inv (scanCell side)
        (fun (acc : (List Move × List Move) × Board) => acc = (([], []), b))
        boardCells (([], []), b) rfl ?_
      intro acc p hp hacc
      subst hacc
      unfold scanCell
      dsimp only
      by_cases hpe : b ((p.1 : Int), (p.2 : Int)) = Cell.e
      · rw [if_pos hpe]
      · rw [if_neg hpe]
        have hnt := hcells p hp
        cases side
        · rw [if_pos ⟨rfl, fun hor => hnt (by simpa [targets] using hor)⟩]
        · rw [if_neg (by simp),
            if_pos ⟨rfl, fun hor => hnt (by simpa [targets] using hor)⟩]
    unfold allLegalMoves allLegalMovesS
    rw [hscan]
    simp

set_option maxRecDepth 1000000 in
unseal capStep capDirs in
/-- Witness for C2 at concrete inputs: a forced capture on `capBoard`, the
no-capture initial position, and a side with no pieces on the empty board. -/
theorem c2_witness :
    capturesOf capBoard Side.b ≠ [] ∧
    (allLegalMoves capBoard Side.b = capturesOf capBoard Side.b ∧
      ∀ mv ∈ allLegalMoves capBoard Side.b, mv.is_capture = true ∧ mv.captured ≠ []) ∧
    capturesOf initialBoard Side.w = [] ∧
    allLegalMoves initialBoard Side.w = quietsOf initialBoard Side.w ∧
    hasPieces emptyBoard Side.b = false ∧
    allLegalMoves emptyBoard Side.b = [] := by
  have h1 : capturesOf capBoard Side.b ≠ [] := by decide
  have h2 : capturesOf initialBoard Side.w = [] := by decide
  have h3 : hasPieces emptyBoard Side.b = false := by decide
  exact ⟨h1, (c2_mandatory_capture capBoard Side.b).1 h1, h2,
    (c2_mandatory_capture initialBoard Side.w).2.1 h2, h3,
    (c2_mandatory_capture emptyBoard Side.b).2.2 h3⟩

/-- Every legal move starts on an occupied in-range square and its end
coordinate has the same (row+column) parity as its start; used to show
moves never leave the dark squares. -/
theorem allLegalMoves_props (b : Board) (side : Side) :
    ∀ mv ∈ allLegalMoves b side,
      b mv.StartingMoveLocation ≠ Cell.e ∧
      inside mv.StartingMoveLocation.1 mv.StartingMoveLocation.2 = true ∧
      ((mv.TargetingMoveLocation.1 + mv.TargetingMoveLocation.2)
        - (mv.StartingMoveLocation.1 + mv.StartingMoveLocation.2)) % 2 = 0 := by
  intro mv hmv
  have hsel : mv ∈ (scanMoves b side).1.1 ∨ mv ∈ (scanMoves b side).1.2 := by
    unfold allLegalMoves allLegalMovesS at hmv
    dsimp only at hmv
    split_ifs at hmv
    · exact Or.inr hmv
    · exact Or.inl hmv
  rcases hsel with h | h
  · obtain ⟨rc, hocc, hins, hg⟩ := (scanMoves_spec b side).1 mv h
    have hs := hg.start_eq
    refine ⟨by rw [hs]; exact hocc, by rw [hs]; exact hins, ?_⟩
    have hTmem : mv.TargetingMoveLocation ∈ mv.path := by
      rw [← hg.path_last]
      exact getLastD_mem_of_ne_nil _ _ hg.path_ne
    have hp := hg.path_par _ hTmem
    omega
  · obtain ⟨hocc, hins, _, _, d, hd, htgt⟩ := (scanMoves_spec b side).2 mv h
    refine ⟨hocc, hins, ?_⟩
    have hdu := directions_units _ d hd
    rw [htgt]
    dsimp only
    rcases hdu.1 with h1 | h1 <;> rcases hdu.2 with h2 | h2 <;> rw [h1, h2] <;> omega

/-- C9: in every board state reachable from the initial board by applying
legal moves for the side to move, every light square (row+column even) is
empty. -/
theorem c9_light_squares_empty (b : Board) (side : Side) (h : Reachable b side) :
    lightEmpty b := by
  induction h with
  | init =>
    intro r c h0 h8 hc0 hc8 hpar
    unfold initialBoard
    dsimp only
    split_ifs with h1 h2
    · exact absurd h1.2.2.2.2 (by omega)
    · exact absurd h2.2.2.2.2 (by omega)
    · rfl
  | step b side mv hreach hmv ih =>
    intro r c h0 h8 hc0 hc8 hpar
    obtain ⟨hocc, hins, hpar2⟩ := allLegalMoves_props b side mv hmv
    simp only [inside, decide_eq_true_eq] at hins
    have hSdark : (mv.StartingMoveLocation.1 + mv.StartingMoveLocation.2) % 2 = 1 := by
      by_contra hlight
      have h0' : (mv.StartingMoveLocation.1 + mv.StartingMoveLocation.2) % 2 = 0 := by
        omega
      have hemp := ih mv.StartingMoveLocation.1 mv.StartingMoveLocation.2
        hins.1 hins.2.1 hins.2.2.1 hins.2.2.2 h0'
      exact hocc hemp
    have hTne : ((r, c) : Coordinate) ≠ mv.TargetingMoveLocation := by
      intro he
      have h1 : mv.TargetingMoveLocation.1 = r := by rw [← he]
      have h2 : mv.TargetingMoveLocation.2 = c := by rw [← he]
      omega
    unfold applyMove
    rw [setPiece_other _ _ _ _ hTne]
    by_cases hcap : ((r, c) : Coordinate) ∈ mv.captured
    · exact clearFold_mem _ _ _ hcap
    · rw [clearFold_not_mem _ _ _ hcap]
      by_cases hS : ((r, c) : Coordinate) = mv.StartingMoveLocation
      · rw [hS, setPiece_self]
      · rw [setPiece_other _ _ _ _ hS]
        exact ih r c h0 h8 hc0 hc8 hpar

/-- Witness for C9: the hypothesis discharged at the initial board. -/
theorem c9_witness : lightEmpty initialBoard :=
  c9_light_squares_empty initialBoard Side.w Reachable.init

/-! ### Key uniqueness (claim C3) -/

/-- The `seen`-set discipline keeps the recorded keys distinct through the
whole recursive search. -/
theorem capStep_keys (side : Side) :
    ∀ (fuel : Nat) (b : Board) (fr fc : Int) (pl : Cell)
      (path captured : List Coordinate) (acc : List Move),
      (acc.map keyOf).Nodup →
      (((capStep side fuel b fr fc pl path captured acc).1).map keyOf).Nodup := by
  intro fuel
  induction fuel with
  | zero =>
    intro b fr fc pl path captured acc hacc
    rw [capStep]
    exact hacc
  | succ n ih =>
    intro b fr fc pl path captured acc hacc
    have hdirs : ∀ (ds : List (Int × Int)) (st : Bool × List Move × Board),
        (st.2.1.map keyOf).Nodup →
        (((capDirs side n fr fc pl path captured ds st).2.1).map keyOf).Nodup := by
      intro ds
      induction ds with
      | nil =>
        intro st hst
        rw [capDirs]
        exact hst
      | cons d ds ihd =>
        intro st hst
        rw [capDirs]
        dsimp only
        split_ifs with h1 h2
        · exact ihd _ hst
        · exact ihd _ (ih _ _ _ _ _ _ _ hst)
        · exact ihd _ hst
    rw [capStep]
    dsimp only
    split_ifs with h1 h2
    · exact hdirs _ _ hacc
    · rw [List.map_append]
      have hd := hdirs (directions pl) (false, acc, b) hacc
      simp only [List.map_cons, List.map_nil]
      rw [List.nodup_append]
      exact ⟨hd, List.nodup_singleton _, by
        intro k hk
        simp only [List.mem_singleton]
        intro hkeq
        exact h2 (hkeq ▸ hk)⟩
    · exact hdirs _ _ hacc

/-- Distinct scan cells produce capture moves with distinct keys. -/
theorem scan_keys (b : Board) (side : Side) :
    ∀ (L : List (Nat × Nat)) (acc : (List Move × List Move) × Board),
      acc.2 = b →
      (acc.1.1.map keyOf).Nodup →
      (∀ mv ∈ acc.1.1, ∀ p ∈ L,
        mv.StartingMoveLocation ≠ ((p.1 : Int), (p.2 : Int))) →
      L.Nodup →
      (((L.foldl (scanCell side) acc).1.1).map keyOf).Nodup := by
  intro L
  induction L with
  | nil =>
    intro acc _ h2 _ _
    exact h2
  | cons p rest ihL =>
    intro acc hb hnd hfresh hLnd
    rw [List.foldl_cons]
    have hLnd' := List.Nodup.of_cons hLnd
    have hpnotin : p ∉ rest := (List.nodup_cons.mp hLnd).1
    apply ihL
    · unfold scanCell
      dsimp only
      split_ifs <;> simp [movesFromS_board, hb]
    · unfold scanCell
      dsimp only
      split_ifs with h1 h2 h3
      · exact hnd
      · exact hnd
      · exact hnd
      · dsimp only
        rw [List.map_append, List.nodup_append]
        refine ⟨hnd, ?_, ?_⟩
        · have := capStep_keys side capFuel acc.2 (p.1 : Int) (p.2 : Int)
            (acc.2 ((p.1 : Int), (p.2 : Int))) [((p.1 : Int), (p.2 : Int))] [] [] (by simp)
          simpa [movesFromS] using this
        · intro k hk hknew
          obtain ⟨mv, hmv, hkmv⟩ := List.mem_map.mp hk
          obtain ⟨mv2, hmv2, hkmv2⟩ := List.mem_map.mp hknew
          have hst2 := (movesFromS_caps acc.2 ((p.1 : Int), (p.2 : Int)) _ side rfl
            mv2 hmv2).start_eq
          have hks : mv.StartingMoveLocation = mv2.StartingMoveLocation := by
            have : keyOf mv = keyOf mv2 := by rw [hkmv, hkmv2]
            exact congrArg Prod.fst this
          exact hfresh mv hmv p (List.mem_cons_self _ _) (hks.trans hst2)
    · intro mv hmv q hq
      have hq' := List.mem_cons_of_mem p hq
      unfold scanCell at hmv
      dsimp only at hmv
      split_ifs at hmv with h1 h2 h3
      · exact hfresh mv hmv q hq'
      · exact hfresh mv hmv q hq'
      · exact hfresh mv hmv q hq'
      · rcases List.mem_append.mp hmv with hmv1 | hmv2
        · exact hfresh mv hmv1 q hq'
        · have hst := (movesFromS_caps acc.2 ((p.1 : Int), (p.2 : Int)) _ side rfl
            mv hmv2).start_eq
          rw [hst]
          intro he
          have h1 : (p.1 : Int) = (q.1 : Int) := congrArg Prod.fst he
          have h2 : (p.2 : Int) = (q.2 : Int) := congrArg Prod.snd he
          have hpq : p = q := by
            have e1 : p.1 = q.1 := Int.ofNat_inj.mp (by exact_mod_cast h1)
            have e2 : p.2 = q.2 := Int.ofNat_inj.mp (by exact_mod_cast h2)
            exact Prod.ext e1 e2
          exact hpnotin (hpq ▸ hq)
    · exact hLnd'

/-- The keys of all generated capture moves are distinct. -/
theorem capturesOf_keys (b : Board) (side : Side) :
    ((capturesOf b side).map keyOf).Nodup := by
  unfold capturesOf scanMoves
  exact scan_keys b side boardCells (([], []), b) rfl (by simp) (by simp) (by decide)

/-- C3: every capture move generated by `AllLegalMoves`/`_MovesFrom` is a
maximal chain (from its end coordinate, with the rank held after any
mid-chain promotion, no further jump over a not-yet-captured opponent
piece into an empty square is possible), its captured list has no repeated
coordinate, and no two recorded capture moves of one enumeration share the
same (start, path, captured) key. -/
theorem c3_capture_chains (b : Board) (side : Side) :
    (∀ mv ∈ capturesOf b side,
      mv.is_capture = true ∧ MaximalChain side b mv ∧ mv.captured.Nodup) ∧
    (capturesOf b side).Pairwise (fun m1 m2 => keyOf m1 ≠ keyOf m2) := by
  constructor
  · intro mv hmv
    unfold capturesOf at hmv
    obtain ⟨rc, _, _, hg⟩ := (scanMoves_spec b side).1 mv hmv
    exact ⟨hg.is_cap, hg.maximal, hg.cap_nodup⟩
  · have h := capturesOf_keys b side
    rw [List.Nodup, List.pairwise_map] at h
    exact h

set_option maxRecDepth 1000000 in
unseal capStep capDirs in
/-- Witness for C3: the membership hypothesis discharged on the concrete
forced capture of `capBoard`. -/
theorem c3_witness :
    capMove ∈ capturesOf capBoard Side.b ∧
    (capMove.is_capture = true ∧ MaximalChain Side.b capBoard capMove ∧
      capMove.captured.Nodup) := by
  have hm : capMove ∈ capturesOf capBoard Side.b := by decide
  exact ⟨hm, (c3_capture_chains capBoard Side.b).1 capMove hm⟩

/-! ### The MaxFringeSize field is never updated (claim C10) -/

theorem tick_fringe (clock : Nat → Int) (s : SState) :
    (tick clock s).2.an.MaxFringeSize = s.an.MaxFringeSize := rfl

theorem addNode_fringe (s : SState) :
    (addNode s).an.MaxFringeSize = s.an.MaxFringeSize := rfl

theorem addCut_fringe (s : SState) :
    (addCut s).an.MaxFringeSize = s.an.MaxFringeSize := rfl

theorem addGain_fringe (s : SState) :
    (addGain s).an.MaxFringeSize = s.an.MaxFringeSize := rfl

theorem orderMoves_fringe (useOrd : Bool) (b : Board) (side : Side)
    (moves : List Move) (s : SState) :
    (orderMoves useOrd b side moves s).2.an.MaxFringeSize = s.an.MaxFringeSize := by
  unfold orderMoves
  split_ifs <;> rfl


theorem value_fringe (clock : Nat → Int) (useAB useOrd : Bool)
    (lm : Board → Side → List Move) (tp : Board → Bool) (deadline : Int) :
    ∀ d : Nat,
      ((∀ bd a be s,
          (maxValueAux clock useAB useOrd lm tp deadline d bd a be s).2.an.MaxFringeSize
            = s.an.MaxFringeSize) ∧
       (∀ bd a be s,
          (minValueAux clock useAB useOrd lm tp deadline d bd a be s).2.an.MaxFringeSize
            = s.an.MaxFringeSize)) ∧
      ((∀ bd ms best a be s,
          (maxLoopAux clock useAB useOrd lm tp deadline d bd ms best a be s).2.an.MaxFringeSize
            = s.an.MaxFringeSize) ∧
       (∀ bd ms best a be s,
          (minLoopAux clock useAB useOrd lm tp deadline d bd ms best a be s).2.an.MaxFringeSize
            = s.an.MaxFringeSize)) := by
  intro d
  induction d with
  | zero =>
    have hvmax : ∀ bd a be s,
        (maxValueAux clock useAB useOrd lm tp deadline 0 bd a be s).2.an.MaxFringeSize
          = s.an.MaxFringeSize := by
      intro bd a be s
      rw [maxValueAux]
      split_ifs <;> rfl
    have hvmin : ∀ bd a be s,
        (minValueAux clock useAB useOrd lm tp deadline 0 bd a be s).2.an.MaxFringeSize
          = s.an.MaxFringeSize := by
      intro bd a be s
      rw [minValueAux]
      split_ifs <;> rfl
    refine ⟨⟨hvmax, hvmin⟩, ?_, ?_⟩
    · intro bd ms
      induction ms with
      | nil => intro best a be s; rw [maxLoopAux]
      | cons m rest ihm =>
        intro best a be s
        rw [maxLoopAux]
        split_ifs with h1
        · rw [addCut_fringe, hvmin]
        · rw [ihm, hvmin]
    · intro bd ms
      induction ms with
      | nil => intro best a be s; rw [minLoopAux]
      | cons m rest ihm =>
        intro best a be s
        rw [minLoopAux]
        split_ifs with h1
        · rw [addCut_fringe, hvmax]
        · rw [ihm, hvmax]
  | succ n ihn =>
    have hvmax : ∀ bd a be s,
        (maxValueAux clock useAB useOrd lm tp deadline (n + 1) bd a be s).2.an.MaxFringeSize
          = s.an.MaxFringeSize := by
      intro bd a be s
      rw [maxValueAux]
      split_ifs with h1 h2
      · rfl
      · rfl
      · dsimp only
        split_ifs with h3
        · rfl
        · rw [ihn.2.1, orderMoves_fringe, addNode_fringe, tick_fringe]
    have hvmin : ∀ bd a be s,
        (minValueAux clock useAB useOrd lm tp deadline (n + 1) bd a be s).2.an.MaxFringeSize
          = s.an.MaxFringeSize := by
      intro bd a be s
      rw [minValueAux]
      split_ifs with h1 h2
      · rfl
      · rfl
      · dsimp only
        split_ifs with h3
        · rfl
        · rw [ihn.2.2, orderMoves_fringe, addNode_fringe, tick_fringe]
    refine ⟨⟨hvmax, hvmin⟩, ?_, ?_⟩
    · intro bd ms
      induction ms with
      | nil => intro best a be s; rw [maxLoopAux]
      | cons m rest ihm =>
        intro best a be s
        rw [maxLoopAux]
        split_ifs with h1
        · rw [addCut_fringe, hvmin]
        · rw [ihm, hvmin]
    · intro bd ms
      induction ms with
      | nil => intro best a be s; rw [minLoopAux]
      | cons m rest ihm =>
        intro best a be s
        rw [minLoopAux]
        split_ifs with h1
        · rw [addCut_fringe, hvmax]
        · rw [ihm, hvmax]

theorem maxValue_fringe (clock : Nat → Int) (useAB useOrd : Bool) (deadline : Int)
    (d : Nat) (bd : Board) (a be : Int) (s : SState) :
    (maxValue clock useAB useOrd deadline d bd a be s).2.an.MaxFringeSize
      = s.an.MaxFringeSize :=
  (value_fringe clock useAB useOrd allLegalMoves isTerminal deadline d).1.1 bd a be s

theorem minValue_fringe (clock : Nat → Int) (useAB useOrd : Bool) (deadline : Int)
    (d : Nat) (bd : Board) (a be : Int) (s : SState) :
    (minValue clock useAB useOrd deadline d bd a be s).2.an.MaxFringeSize
      = s.an.MaxFringeSize :=
  (value_fringe clock useAB useOrd allLegalMoves isTerminal deadline d).1.2 bd a be s

theorem rootLoop_fringe (clock : Nat → Int) (useAB useOrd : Bool) (deadline : Int)
    (dm : Nat) (b : Board) (side : Side) :
    ∀ (ms : List Move) (idx : Nat) (bm : Option Move) (bs alpha beta : Int) (s : SState),
      (rootLoop clock useAB useOrd deadline dm b side ms idx bm bs
        alpha beta s).2.2.an.MaxFringeSize = s.an.MaxFringeSize := by
  intro ms
  induction ms with
  | nil => intro idx bm bs alpha beta s; rw [rootLoop]
  | cons m rest ihm =>
    intro idx bm bs alpha beta s
    rw [rootLoop]
    dsimp only
    split_ifs <;>
      simp only [ihm, tick_fringe, addGain_fringe, maxValue_fringe, minValue_fringe]

theorem searchDepth_fringe (clock : Nat → Int) (useAB useOrd : Bool) (deadline : Int)
    (b : Board) (side : Side) (depth : Nat) (s : SState) :
    (searchDepth clock useAB useOrd deadline b side depth s).2.2.an.MaxFringeSize
      = s.an.MaxFringeSize := by
  unfold searchDepth
  dsimp only
  split_ifs <;>
    simp only [tick_fringe, rootLoop_fringe, orderMoves_fringe]

theorem idLoop_fringe (clock : Nat → Int) (useAB useOrd : Bool) (deadline : Int)
    (side : Side) :
    ∀ (depths : List Nat) (b : Board) (bm : Option Move) (bs : Option Int) (s : SState),
      (idLoop clock useAB useOrd deadline b side depths bm bs s).2.2.2.an.MaxFringeSize
        = s.an.MaxFringeSize := by
  intro depths
  induction depths with
  | nil => intros; rfl
  | cons dep rest ihd =>
    intro b bm bs s
    rw [idLoop]
    dsimp only
    split_ifs <;>
      simp only [ihd, tick_fringe, searchDepth_fringe]

/-- C10: after every `ChooseMove` call, in every mode and for every board,
side, time budget, ply limit and clock, the analytics record's
`MaxFringeSize` field equals 0: it is reset at the start of the call and
no operation of the search ever updates it, so the exposed max fringe size
is never actually measured. -/
theorem c10_max_fringe_never_measured (clock : Nat → Int) (useAB useOrd : Bool)
    (b : Board) (side : Side) (budget : Int) (ply : Nat) (s : SState) :
    (chooseMove clock useAB useOrd b side budget ply s).2.2.an.MaxFringeSize = 0 := by
  unfold chooseMove
  dsimp only
  split <;> simp only [idLoop_fringe, tick_fringe]

/-! ### Depth-one search (claim C8) -/

/-- Each cell contributes at most 10 in absolute value to the heuristic. -/
theorem heurCell_bound (b : Board) (r c : Nat) (hr : r < 8) (v : Int) :
    v - 10 ≤ heurCell b r v c ∧ heurCell b r v c ≤ v + 10 := by
  have hr' : (r : Int) ≤ 7 := by exact_mod_cast Nat.lt_succ_iff.mp (by omega)
  have hr0 : (0 : Int) ≤ (r : Int) := Int.ofNat_nonneg r
  unfold heurCell
  rcases b ((r : Int), (c : Int)) <;> dsimp only <;> constructor <;> omega

/-- The heuristic score of any board lies in [-640, 640]. -/
theorem heuristicScore_bounds (b : Board) :
    -640 ≤ heuristicScore b ∧ heuristicScore b ≤ 640 := by
  have hrow : ∀ (r : Nat), r < 8 → ∀ (lc : List Nat) (v : Int),
      v - 10 * lc.length ≤ lc.foldl (heurCell b r) v ∧
      lc.foldl (heurCell b r) v ≤ v + 10 * lc.length := by
    intro r hr lc
    induction lc with
    | nil => intro v; simp
    | cons c cs ih =>
      intro v
      rw [List.foldl_cons]
      obtain ⟨hcb1, hcb2⟩ := heurCell_bound b r c hr v
      obtain ⟨ih1, ih2⟩ := ih (heurCell b r v c)
      constructor
      · refine le_trans ?_ ih1
        simp only [List.length_cons]
        push_cast
        omega
      · refine le_trans ih2 ?_
        simp only [List.length_cons]
        push_cast
        omega
  have houter : ∀ (lr : List Nat), (∀ r ∈ lr, r < 8) → ∀ (v : Int),
      v - 80 * lr.length ≤
        lr.foldl (fun v (r : Nat) => (List.range 8).foldl (heurCell b r) v) v ∧
      lr.foldl (fun v (r : Nat) => (List.range 8).foldl (heurCell b r) v) v ≤
        v + 80 * lr.length := by
    intro lr
    induction lr with
    | nil => intro _ v; simp
    | cons r rs ih =>
      intro hmem v
      rw [List.foldl_cons]
      obtain ⟨hr1, hr2⟩ := hrow r (hmem r (List.mem_cons_self _ _)) (List.range 8) v
      obtain ⟨ih1, ih2⟩ := ih (fun x hx => hmem x (List.mem_cons_of_mem _ hx)) _
      simp only [List.length_range] at hr1 hr2
      constructor
      · refine le_trans ?_ ih1
        simp only [List.length_cons]
        push_cast
        omega
      · refine le_trans ih2 ?_
        simp only [List.length_cons]
        push_cast
        omega
  have h := houter (List.range 8) (fun x hx => List.mem_range.mp hx) 0
  simp only [List.length_range] at h
  unfold heuristicScore
  constructor
  · refine le_trans (by omega) h.1
  · refine le_trans h.2 (by omega)

/-- The first component of a clock tick is the clock read at the current index. -/
theorem tick_fst (clock : Nat → Int) (s : SState) :
    (tick clock s).1 = clock s.idx := rfl

/-- Move ordering permutes the candidate list. -/
theorem orderMoves_perm (useOrd : Bool) (b : Board) (side : Side)
    (moves : List Move) (s : SState) :
    (orderMoves useOrd b side moves s).1.Perm moves := by
  have h2 : ∀ (l : List Move) (f : Move → Int),
      (l.map fun m => (f m, m)).map Prod.snd = l := by
    intro l f
    induction l with
    | nil => rfl
    | cons x xs ih =>
      show (f x, x).2 :: (xs.map fun m => (f m, m)).map Prod.snd = x :: xs
      rw [ih]
  unfold orderMoves
  split_ifs
  · exact List.Perm.refl _
  all_goals
    dsimp only
    refine List.Perm.trans (List.Perm.map _ (List.mergeSort_perm _ _)) ?_
    rw [h2]

/-- With the deadline never expiring, a depth-zero value call returns the
heuristic score. -/
theorem value0_score (clock : Nat → Int) (useAB useOrd : Bool)
    (lm : Board → Side → List Move) (tp : Board → Bool) (deadline : Int)
    (bd : Board) (a be : Int) (s : SState) (hne : ∀ i, clock i ≤ deadline) :
    (maxValueAux clock useAB useOrd lm tp deadline 0 bd a be s).1 = heuristicScore bd ∧
    (minValueAux clock useAB useOrd lm tp deadline 0 bd a be s).1 = heuristicScore bd := by
  constructor
  · rw [maxValueAux]
    rw [tick_fst, if_neg (not_lt.mpr (hne s.idx))]
  · rw [minValueAux]
    rw [tick_fst, if_neg (not_lt.mpr (hne s.idx))]

/-- The root loop at remaining depth 0 for Black folds `max` of the one-ply
heuristic values over the candidate list. -/
theorem rootLoop_score_black (clock : Nat → Int) (useAB useOrd : Bool) (deadline : Int)
    (b : Board) (hne : ∀ i, clock i ≤ deadline) :
    ∀ (ms : List Move) (idx : Nat) (bm : Option Move) (bs alpha beta : Int) (s : SState),
      (rootLoop clock useAB useOrd deadline 0 b Side.b ms idx bm bs alpha beta s).2.1
        = ms.foldl (fun acc m => max acc (heuristicScore (applyMove (clone b) m))) bs := by
  intro ms
  induction ms with
  | nil => intro idx bm bs alpha beta s; rw [rootLoop]; rfl
  | cons m rest ihm =>
    intro idx bm bs alpha beta s
    rw [rootLoop]
    dsimp only
    rw [if_pos rfl]
    have hv : (minValue clock useAB useOrd deadline 0 (applyMove (clone b) m)
        alpha beta s).1 = heuristicScore (applyMove (clone b) m) :=
      (value0_score clock useAB useOrd allLegalMoves isTerminal deadline
        (applyMove (clone b) m) alpha beta s hne).2
    have hdl : ∀ (st : SState), ¬ deadline < (tick clock st).1 := by
      intro st
      rw [tick_fst]
      exact not_lt.mpr (hne st.idx)
    simp only [if_neg (hdl _)]
    rw [List.foldl_cons]
    split_ifs with h1 h2
    · rw [ihm]
      dsimp only
      rw [hv] at h1
      rw [hv, max_eq_right (le_of_lt h1)]
    · rw [ihm]
      dsimp only
      rw [hv] at h1
      rw [hv, max_eq_right (le_of_lt h1)]
    · rw [ihm]
      dsimp only
      rw [hv] at h1
      rw [max_eq_left (not_lt.mp h1)]

/-- The root loop at remaining depth 0 for White folds `min` of the one-ply
heuristic values over the candidate list. -/
theorem rootLoop_score_white (clock : Nat → Int) (useAB useOrd : Bool) (deadline : Int)
    (b : Board) (hne : ∀ i, clock i ≤ deadline) :
    ∀ (ms : List Move) (idx : Nat) (bm : Option Move) (bs alpha beta : Int) (s : SState),
      (rootLoop clock useAB useOrd deadline 0 b Side.w ms idx bm bs alpha beta s).2.1
        = ms.foldl (fun acc m => min acc (heuristicScore (applyMove (clone b) m))) bs := by
  intro ms
  induction ms with
  | nil => intro idx bm bs alpha beta s; rw [rootLoop]; rfl
  | cons m rest ihm =>
    intro idx bm bs alpha beta s
    rw [rootLoop]
    dsimp only
    rw [if_neg (by decide : ¬ Side.w = Side.b)]
    have hv : (maxValue clock useAB useOrd deadline 0 (applyMove (clone b) m)
        alpha beta s).1 = heuristicScore (applyMove (clone b) m) :=
      (value0_score clock useAB useOrd allLegalMoves isTerminal deadline
        (applyMove (clone b) m) alpha beta s hne).1
    have hdl : ∀ (st : SState), ¬ deadline < (tick clock st).1 := by
      intro st
      rw [tick_fst]
      exact not_lt.mpr (hne st.idx)
    simp only [if_neg (hdl _)]
    rw [List.foldl_cons]
    split_ifs with h1 h2
    · rw [ihm]
      dsimp only
      rw [hv] at h1
      rw [hv, min_eq_right (le_of_lt h1)]
    · rw [ihm]
      dsimp only
      rw [hv] at h1
      rw [hv, min_eq_right (le_of_lt h1)]
    · rw [ihm]
      dsimp only
      rw [hv] at h1
      rw [min_eq_left (not_lt.mp h1)]

/-- The seed of a running-`max` fold is a lower bound of the result. -/
theorem foldl_max_init (f : Move → Int) :
    ∀ (l : List Move) (init : Int),
      init ≤ l.foldl (fun acc y => max acc (f y)) init := by
  intro l
  induction l with
  | nil => intro init; exact le_refl _
  | cons x xs ih =>
    intro init
    simp only [List.foldl_cons]
    exact le_trans (le_max_left init (f x)) (ih (max init (f x)))

/-- Every listed value is bounded by the running-`max` fold. -/
theorem foldl_max_le (f : Move → Int) :
    ∀ (l : List Move) (init : Int) (x : Move), x ∈ l →
      f x ≤ l.foldl (fun acc y => max acc (f y)) init := by
  intro l
  induction l with
  | nil => intro init x hx; cases hx
  | cons m t ih =>
    intro init x hx
    simp only [List.foldl_cons]
    rcases List.mem_cons.mp hx with h | h
    · subst h
      exact le_trans (le_max_right init (f x)) (foldl_max_init f t _)
    · exact ih _ x h

/-- A running-`max` fold returns its seed or a listed value. -/
theorem foldl_max_attained (f : Move → Int) :
    ∀ (l : List Move) (init : Int),
      l.foldl (fun acc y => max acc (f y)) init = init ∨
      ∃ x ∈ l, l.foldl (fun acc y => max acc (f y)) init = f x := by
  intro l
  induction l with
  | nil => intro init; exact Or.inl rfl
  | cons m t ih =>
    intro init
    simp only [List.foldl_cons]
    rcases ih (max init (f m)) with h | ⟨x, hx, hfx⟩
    · rcases le_total (f m) init with hle | hle
      · left
        rw [h, max_eq_left hle]
      · right
        exact ⟨m, List.mem_cons_self _ _, by rw [h, max_eq_right hle]⟩
    · right
      exact ⟨x, List.mem_cons_of_mem _ hx, hfx⟩

/-- The seed of a running-`min` fold is an upper bound of the result. -/
theorem foldl_min_init (f : Move → Int) :
    ∀ (l : List Move) (init : Int),
      l.foldl (fun acc y => min acc (f y)) init ≤ init := by
  intro l
  induction l with
  | nil => intro init; exact le_refl _
  | cons x xs ih =>
    intro init
    simp only [List.foldl_cons]
    exact le_trans (ih (min init (f x))) (min_le_left init (f x))

/-- The running-`min` fold is bounded by every listed value. -/
theorem foldl_min_le (f : Move → Int) :
    ∀ (l : List Move) (init : Int) (x : Move), x ∈ l →
      l.foldl (fun acc y => min acc (f y)) init ≤ f x := by
  intro l
  induction l with
  | nil => intro init x hx; cases hx
  | cons m t ih =>
    intro init x hx
    simp only [List.foldl_cons]
    rcases List.mem_cons.mp hx with h | h
    · subst h
      exact le_trans (foldl_min_init f t _) (min_le_right init (f x))
    · exact ih _ x h

/-- A running-`min` fold returns its seed or a listed value. -/
theorem foldl_min_attained (f : Move → Int) :
    ∀ (l : List Move) (init : Int),
      l.foldl (fun acc y => min acc (f y)) init = init ∨
      ∃ x ∈ l, l.foldl (fun acc y => min acc (f y)) init = f x := by
  intro l
  induction l with
  | nil => intro init; exact Or.inl rfl
  | cons m t ih =>
    intro init
    simp only [List.foldl_cons]
    rcases ih (min init (f m)) with h | ⟨x, hx, hfx⟩
    · rcases le_total (f m) init with hle | hle
      · right
        exact ⟨m, List.mem_cons_self _ _, by rw [h, min_eq_right hle]⟩
      · left
        rw [h, min_eq_left hle]
    · right
      exact ⟨x, List.mem_cons_of_mem _ hx, hfx⟩

/-- With a never-expiring deadline, a depth-1 search for Black reports the
`max`-fold of the one-ply heuristic values over the (ordered) legal moves. -/
theorem searchDepth_one_black (clock : Nat → Int) (useAB useOrd : Bool) (deadline : Int)
    (b : Board) (s : SState) (hne : ∀ i, clock i ≤ deadline)
    (hm : allLegalMoves b Side.b ≠ []) :
    (searchDepth clock useAB useOrd deadline b Side.b 1 s).1.2 =
      some ((orderMoves useOrd b Side.b (allLegalMovesS b Side.b).1 (tick clock s).2).1.foldl
        (fun acc m => max acc (heuristicScore (applyMove (clone b) m))) (-(10 ^ 9))) := by
  have hm' : ¬ (allLegalMovesS b Side.b).1 = [] := hm
  unfold searchDepth
  dsimp only
  rw [if_neg hm']
  dsimp only
  rw [allLegalMovesS_board, if_pos rfl, Nat.sub_self,
    rootLoop_score_black clock useAB useOrd deadline b hne]

/-- With a never-expiring deadline, a depth-1 search for White reports the
`min`-fold of the one-ply heuristic values over the (ordered) legal moves. -/
theorem searchDepth_one_white (clock : Nat → Int) (useAB useOrd : Bool) (deadline : Int)
    (b : Board) (s : SState) (hne : ∀ i, clock i ≤ deadline)
    (hm : allLegalMoves b Side.w ≠ []) :
    (searchDepth clock useAB useOrd deadline b Side.w 1 s).1.2 =
      some ((orderMoves useOrd b Side.w (allLegalMovesS b Side.w).1 (tick clock s).2).1.foldl
        (fun acc m => min acc (heuristicScore (applyMove (clone b) m))) (10 ^ 9)) := by
  have hm' : ¬ (allLegalMovesS b Side.w).1 = [] := hm
  unfold searchDepth
  dsimp only
  rw [if_neg hm']
  dsimp only
  rw [allLegalMovesS_board, if_neg (by decide : ¬ Side.w = Side.b), Nat.sub_self,
    rootLoop_score_white clock useAB useOrd deadline b hne]

/-- C8: for every board and side with at least one legal move, when the
deadline never expires, the score returned by a depth-1 search is attained
by some legal move's one-ply heuristic value and is the maximum of those
values for Black, the minimum for White (the value of the board obtained by
cloning the board and applying the move). -/
theorem c8_depth_one (clock : Nat → Int) (useAB useOrd : Bool) (deadline : Int)
    (b : Board) (side : Side) (s : SState)
    (hne : ∀ i, clock i ≤ deadline) (hm : allLegalMoves b side ≠ []) :
    ∃ sc, (searchDepth clock useAB useOrd deadline b side 1 s).1.2 = some sc ∧
      (∃ m ∈ allLegalMoves b side, sc = heuristicScore (applyMove (clone b) m)) ∧
      (side = Side.b →
        ∀ m ∈ allLegalMoves b side, heuristicScore (applyMove (clone b) m) ≤ sc) ∧
      (side = Side.w →
        ∀ m ∈ allLegalMoves b side, sc ≤ heuristicScore (applyMove (clone b) m)) := by
  cases side with
  | b =>
    rw [searchDepth_one_black clock useAB useOrd deadline b s hne hm]
    have hperm : (orderMoves useOrd b Side.b (allLegalMovesS b Side.b).1
        (tick clock s).2).1.Perm (allLegalMoves b Side.b) :=
      orderMoves_perm useOrd b Side.b _ _
    refine ⟨_, rfl, ?_, ?_, ?_⟩
    · rcases foldl_max_attained (fun m => heuristicScore (applyMove (clone b) m))
        (orderMoves useOrd b Side.b (allLegalMovesS b Side.b).1 (tick clock s).2).1
        (-(10 ^ 9)) with h | ⟨x, hx, hfx⟩
      · exfalso
        obtain ⟨m0, hm0⟩ := List.exists_mem_of_ne_nil _ hm
        have hle := foldl_max_le (fun m => heuristicScore (applyMove (clone b) m))
          (orderMoves useOrd b Side.b (allLegalMovesS b Side.b).1 (tick clock s).2).1
          (-(10 ^ 9)) m0 (hperm.mem_iff.mpr hm0)
        rw [h] at hle
        have hb := (heuristicScore_bounds (applyMove (clone b) m0)).1
        norm_num at hle
        omega
      · exact ⟨x, hperm.mem_iff.mp hx, hfx⟩
    · intro _ m hmem
      exact foldl_max_le (fun m => heuristicScore (applyMove (clone b) m))
        (orderMoves useOrd b Side.b (allLegalMovesS b Side.b).1 (tick clock s).2).1
        (-(10 ^ 9)) m (hperm.mem_iff.mpr hmem)
    · intro hcontra
      exact absurd hcontra (by decide)
  | w =>
    rw [searchDepth_one_white clock useAB useOrd deadline b s hne hm]
    have hperm : (orderMoves useOrd b Side.w (allLegalMovesS b Side.w).1
        (tick clock s).2).1.Perm (allLegalMoves b Side.w) :=
      orderMoves_perm useOrd b Side.w _ _
    refine ⟨_, rfl, ?_, ?_, ?_⟩
    · rcases foldl_min_attained (fun m => heuristicScore (applyMove (clone b) m))
        (orderMoves useOrd b Side.w (allLegalMovesS b Side.w).1 (tick clock s).2).1
        (10 ^ 9) with h | ⟨x, hx, hfx⟩
      · exfalso
        obtain ⟨m0, hm0⟩ := List.exists_mem_of_ne_nil _ hm
        have hle := foldl_min_le (fun m => heuristicScore (applyMove (clone b) m))
          (orderMoves useOrd b Side.w (allLegalMovesS b Side.w).1 (tick clock s).2).1
          (10 ^ 9) m0 (hperm.mem_iff.mpr hm0)
        rw [h] at hle
        have hb := (heuristicScore_bounds (applyMove (clone b) m0)).2
        norm_num at hle
        omega
      · exact ⟨x, hperm.mem_iff.mp hx, hfx⟩
    · intro hcontra
      exact absurd hcontra (by decide)
    · intro _ m hmem
      exact foldl_min_le (fun m => heuristicScore (applyMove (clone b) m))
        (orderMoves useOrd b Side.w (allLegalMovesS b Side.w).1 (tick clock s).2).1
        (10 ^ 9) m (hperm.mem_iff.mpr hmem)

set_option maxRecDepth 1000000 in
unseal capStep capDirs in
/-- Witness for C8: on `capBoard`, with a constant clock equal to the
deadline, Black's depth-1 search score is attained and maximal. -/
theorem c8_witness :
    ∃ sc, (searchDepth (fun _ => 0) false false 0 capBoard Side.b 1 ⟨0, {}⟩).1.2 = some sc ∧
      (∃ m ∈ allLegalMoves capBoard Side.b,
        sc = heuristicScore (applyMove (clone capBoard) m)) ∧
      (Side.b = Side.b →
        ∀ m ∈ allLegalMoves capBoard Side.b,
          heuristicScore (applyMove (clone capBoard) m) ≤ sc) ∧
      (Side.b = Side.w →
        ∀ m ∈ allLegalMoves capBoard Side.b,
          sc ≤ heuristicScore (applyMove (clone capBoard) m)) :=
  c8_depth_one (fun _ => 0) false false 0 capBoard Side.b ⟨0, {}⟩
    (fun _ => le_refl 0) (by decide)

/-- Ordering a non-empty move list yields a non-empty list. -/
theorem orderMoves_ne_nil (useOrd : Bool) (b : Board) (side : Side) (ms : List Move)
    (s : SState) (h : ms ≠ []) : (orderMoves useOrd b side ms s).1 ≠ [] := by
  intro hel
  have hp := (orderMoves_perm useOrd b side ms s).symm
  rw [hel] at hp
  exact h hp.eq_nil

/-- A clock tick advances the threaded call index by one. -/
theorem tick_idx (clock : Nat → Int) (s : SState) :
    (tick clock s).2.idx = s.idx + 1 := rfl

/-- Move ordering does not advance the call index. -/
theorem orderMoves_idx (useOrd : Bool) (b : Board) (side : Side) (ms : List Move)
    (s : SState) : (orderMoves useOrd b side ms s).2.idx = s.idx := by
  unfold orderMoves
  split_ifs <;> rfl

/-- Bounds for the inner move loops of the search, given bounds for the
value calls at the same remaining depth. -/
theorem loop_bounds_aux (clock : Nat → Int) (useAB useOrd : Bool)
    (lm : Board → Side → List Move) (tp : Board → Bool) (deadline : Int) (d : Nat)
    (hvmax : ∀ bd a be s,
      -640 ≤ (maxValueAux clock useAB useOrd lm tp deadline d bd a be s).1 ∧
      (maxValueAux clock useAB useOrd lm tp deadline d bd a be s).1 ≤ 640)
    (hvmin : ∀ bd a be s,
      -640 ≤ (minValueAux clock useAB useOrd lm tp deadline d bd a be s).1 ∧
      (minValueAux clock useAB useOrd lm tp deadline d bd a be s).1 ≤ 640) :
    (∀ bd ms best a be s,
      best ≤ (maxLoopAux clock useAB useOrd lm tp deadline d bd ms best a be s).1 ∧
      (maxLoopAux clock useAB useOrd lm tp deadline d bd ms best a be s).1 ≤ max best 640 ∧
      (ms ≠ [] → -640 ≤ (maxLoopAux clock useAB useOrd lm tp deadline d bd ms best a be s).1)) ∧
    (∀ bd ms best a be s,
      (minLoopAux clock useAB useOrd lm tp deadline d bd ms best a be s).1 ≤ best ∧
      min best (-640) ≤ (minLoopAux clock useAB useOrd lm tp deadline d bd ms best a be s).1 ∧
      (ms ≠ [] → (minLoopAux clock useAB useOrd lm tp deadline d bd ms best a be s).1 ≤ 640)) := by
  constructor
  · intro bd ms
    induction ms with
    | nil =>
      intro best a be s
      rw [maxLoopAux]
      exact ⟨le_refl _, le_max_left _ _, fun h => absurd rfl h⟩
    | cons m rest ihm =>
      intro best a be s
      rw [maxLoopAux]
      obtain ⟨hv1, hv2⟩ := hvmin (applyMove (clone bd) m) a be s
      split_ifs with h1
      · refine ⟨le_max_left _ _, ?_, fun _ => ?_⟩ <;> dsimp only <;> omega
      · obtain ⟨hl1, hl2, hl3⟩ := ihm
          (max best (minValueAux clock useAB useOrd lm tp deadline d
            (applyMove (clone bd) m) a be s).1)
          (max a (max best (minValueAux clock useAB useOrd lm tp deadline d
            (applyMove (clone bd) m) a be s).1))
          be
          ((minValueAux clock useAB useOrd lm tp deadline d
            (applyMove (clone bd) m) a be s).2)
        refine ⟨?_, ?_, fun _ => ?_⟩ <;> omega
  · intro bd ms
    induction ms with
    | nil =>
      intro best a be s
      rw [minLoopAux]
      exact ⟨le_refl _, min_le_left _ _, fun h => absurd rfl h⟩
    | cons m rest ihm =>
      intro best a be s
      rw [minLoopAux]
      obtain ⟨hv1, hv2⟩ := hvmax (applyMove (clone bd) m) a be s
      split_ifs with h1
      · refine ⟨min_le_left _ _, ?_, fun _ => ?_⟩ <;> dsimp only <;> omega
      · obtain ⟨hl1, hl2, hl3⟩ := ihm
          (min best (maxValueAux clock useAB useOrd lm tp deadline d
            (applyMove (clone bd) m) a be s).1)
          a
          (min be (min best (maxValueAux clock useAB useOrd lm tp deadline d
            (applyMove (clone bd) m) a be s).1))
          ((maxValueAux clock useAB useOrd lm tp deadline d
            (applyMove (clone bd) m) a be s).2)
        refine ⟨?_, ?_, fun _ => ?_⟩ <;> omega

/-- Every value computed by the search lies in [-640, 640]: leaf calls
return a heuristic score and interior calls fold the values of at least one
child, so the sentinels ±10^9 never escape. -/
theorem value_bounds (clock : Nat → Int) (useAB useOrd : Bool)
    (lm : Board → Side → List Move) (tp : Board → Bool) (deadline : Int) :
    ∀ d : Nat,
      (∀ bd a be s,
        -640 ≤ (maxValueAux clock useAB useOrd lm tp deadline d bd a be s).1 ∧
        (maxValueAux clock useAB useOrd lm tp deadline d bd a be s).1 ≤ 640) ∧
      (∀ bd a be s,
        -640 ≤ (minValueAux clock useAB useOrd lm tp deadline d bd a be s).1 ∧
        (minValueAux clock useAB useOrd lm tp deadline d bd a be s).1 ≤ 640) := by
  intro d
  induction d with
  | zero =>
    constructor <;> intro bd a be s
    · rw [maxValueAux]
      split_ifs <;> exact heuristicScore_bounds bd
    · rw [minValueAux]
      split_ifs <;> exact heuristicScore_bounds bd
  | succ n ihn =>
    obtain ⟨hloopmax, hloopmin⟩ :=
      loop_bounds_aux clock useAB useOrd lm tp deadline n ihn.1 ihn.2
    constructor <;> intro bd a be s
    · rw [maxValueAux]
      split_ifs with h1 h2
      · exact heuristicScore_bounds bd
      · exact heuristicScore_bounds bd
      · dsimp only
        split_ifs with h3
        · exact heuristicScore_bounds bd
        · obtain ⟨hl1, hl2, hl3⟩ := hloopmax bd
            (orderMoves useOrd bd Side.b (lm bd Side.b) (addNode (tick clock s).2)).1
            (-(10 ^ 9)) a be
            (orderMoves useOrd bd Side.b (lm bd Side.b) (addNode (tick clock s).2)).2
          have hnn := hl3 (orderMoves_ne_nil useOrd bd Side.b (lm bd Side.b)
            (addNode (tick clock s).2) h3)
          refine ⟨hnn, ?_⟩
          have hp : (10:Int) ^ 9 = 1000000000 := by norm_num
          rw [hp] at hl2 ⊢
          omega
    · rw [minValueAux]
      split_ifs with h1 h2
      · exact heuristicScore_bounds bd
      · exact heuristicScore_bounds bd
      · dsimp only
        split_ifs with h3
        · exact heuristicScore_bounds bd
        · obtain ⟨hl1, hl2, hl3⟩ := hloopmin bd
            (orderMoves useOrd bd Side.w (lm bd Side.w) (addNode (tick clock s).2)).1
            (10 ^ 9) a be
            (orderMoves useOrd bd Side.w (lm bd Side.w) (addNode (tick clock s).2)).2
          have hnn := hl3 (orderMoves_ne_nil useOrd bd Side.w (lm bd Side.w)
            (addNode (tick clock s).2) h3)
          refine ⟨?_, hnn⟩
          have hp : (10:Int) ^ 9 = 1000000000 := by norm_num
          rw [hp] at hl2 ⊢
          omega

theorem addNode_idx (s : SState) : (addNode s).idx = s.idx := rfl

theorem addCut_idx (s : SState) : (addCut s).idx = s.idx := rfl

theorem addGain_idx (s : SState) : (addGain s).idx = s.idx := rfl

/-- The threaded call index never decreases through a value call or an
inner move loop. -/
theorem value_idx (clock : Nat → Int) (useAB useOrd : Bool)
    (lm : Board → Side → List Move) (tp : Board → Bool) (deadline : Int) :
    ∀ d : Nat,
      ((∀ bd a be s,
          s.idx ≤ (maxValueAux clock useAB useOrd lm tp deadline d bd a be s).2.idx) ∧
       (∀ bd a be s,
          s.idx ≤ (minValueAux clock useAB useOrd lm tp deadline d bd a be s).2.idx)) ∧
      ((∀ bd ms best a be s,
          s.idx ≤ (maxLoopAux clock useAB useOrd lm tp deadline d bd ms best a be s).2.idx) ∧
       (∀ bd ms best a be s,
          s.idx ≤ (minLoopAux clock useAB useOrd lm tp deadline d bd ms best a be s).2.idx)) := by
  intro d
  induction d with
  | zero =>
    have hvmax : ∀ bd a be s,
        s.idx ≤ (maxValueAux clock useAB useOrd lm tp deadline 0 bd a be s).2.idx := by
      intro bd a be s
      rw [maxValueAux]
      split_ifs <;> exact Nat.le_succ s.idx
    have hvmin : ∀ bd a be s,
        s.idx ≤ (minValueAux clock useAB useOrd lm tp deadline 0 bd a be s).2.idx := by
      intro bd a be s
      rw [minValueAux]
      split_ifs <;> exact Nat.le_succ s.idx
    refine ⟨⟨hvmax, hvmin⟩, ?_, ?_⟩
    · intro bd ms
      induction ms with
      | nil => intro best a be s; rw [maxLoopAux]
      | cons m rest ihm =>
        intro best a be s
        rw [maxLoopAux]
        split_ifs with h1
        · exact hvmin (applyMove (clone bd) m) a be s
        · exact le_trans (hvmin (applyMove (clone bd) m) a be s) (ihm _ _ _ _)
    · intro bd ms
      induction ms with
      | nil => intro best a be s; rw [minLoopAux]
      | cons m rest ihm =>
        intro best a be s
        rw [minLoopAux]
        split_ifs with h1
        · exact hvmax (applyMove (clone bd) m) a be s
        · exact le_trans (hvmax (applyMove (clone bd) m) a be s) (ihm _ _ _ _)
  | succ n ihn =>
    have hvmax : ∀ bd a be s,
        s.idx ≤ (maxValueAux clock useAB useOrd lm tp deadline (n + 1) bd a be s).2.idx := by
      intro bd a be s
      rw [maxValueAux]
      split_ifs with h1 h2
      · exact Nat.le_succ s.idx
      · exact Nat.le_succ s.idx
      · dsimp only
        split_ifs with h3
        · exact Nat.le_succ s.idx
        · have h4 := ihn.2.1 bd
            (orderMoves useOrd bd Side.b (lm bd Side.b) (addNode (tick clock s).2)).1
            (-(10 ^ 9)) a be
            (orderMoves useOrd bd Side.b (lm bd Side.b) (addNode (tick clock s).2)).2
          have h5 : (orderMoves useOrd bd Side.b (lm bd Side.b)
              (addNode (tick clock s).2)).2.idx = s.idx + 1 := by
            rw [orderMoves_idx]
            rfl
          omega
    have hvmin : ∀ bd a be s,
        s.idx ≤ (minValueAux clock useAB useOrd lm tp deadline (n + 1) bd a be s).2.idx := by
      intro bd a be s
      rw [minValueAux]
      split_ifs with h1 h2
      · exact Nat.le_succ s.idx
      · exact Nat.le_succ s.idx
      · dsimp only
        split_ifs with h3
        · exact Nat.le_succ s.idx
        · have h4 := ihn.2.2 bd
            (orderMoves useOrd bd Side.w (lm bd Side.w) (addNode (tick clock s).2)).1
            (10 ^ 9) a be
            (orderMoves useOrd bd Side.w (lm bd Side.w) (addNode (tick clock s).2)).2
          have h5 : (orderMoves useOrd bd Side.w (lm bd Side.w)
              (addNode (tick clock s).2)).2.idx = s.idx + 1 := by
            rw [orderMoves_idx]
            rfl
          omega
    refine ⟨⟨hvmax, hvmin⟩, ?_, ?_⟩
    · intro bd ms
      induction ms with
      | nil => intro best a be s; rw [maxLoopAux]
      | cons m rest ihm =>
        intro best a be s
        rw [maxLoopAux]
        split_ifs with h1
        · exact hvmin (applyMove (clone bd) m) a be s
        · exact le_trans (hvmin (applyMove (clone bd) m) a be s) (ihm _ _ _ _)
    · intro bd ms
      induction ms with
      | nil => intro best a be s; rw [minLoopAux]
      | cons m rest ihm =>
        intro best a be s
        rw [minLoopAux]
        split_ifs with h1
        · exact hvmax (applyMove (clone bd) m) a be s
        · exact le_trans (hvmax (applyMove (clone bd) m) a be s) (ihm _ _ _ _)

theorem maxValue_idx (clock : Nat → Int) (useAB useOrd : Bool) (deadline : Int)
    (d : Nat) (bd : Board) (a be : Int) (s : SState) :
    s.idx ≤ (maxValue clock useAB useOrd deadline d bd a be s).2.idx :=
  (value_idx clock useAB useOrd allLegalMoves isTerminal deadline d).1.1 bd a be s

theorem minValue_idx (clock : Nat → Int) (useAB useOrd : Bool) (deadline : Int)
    (d : Nat) (bd : Board) (a be : Int) (s : SState) :
    s.idx ≤ (minValue clock useAB useOrd deadline d bd a be s).2.idx :=
  (value_idx clock useAB useOrd allLegalMoves isTerminal deadline d).1.2 bd a be s

/-- The call index never decreases through the root move loop. -/
theorem rootLoop_idx (clock : Nat → Int) (useAB useOrd : Bool) (deadline : Int)
    (dm : Nat) (b : Board) (side : Side) :
    ∀ (ms : List Move) (idx : Nat) (bm : Option Move) (bs alpha beta : Int) (s : SState),
      s.idx ≤ (rootLoop clock useAB useOrd deadline dm b side ms idx bm bs
        alpha beta s).2.2.idx := by
  intro ms
  induction ms with
  | nil => intro idx bm bs alpha beta s; rw [rootLoop]
  | cons m rest ihm =>
    intro idx bm bs alpha beta s
    rw [rootLoop]
    dsimp only
    have hminv := minValue_idx clock useAB useOrd deadline dm (applyMove (clone b) m)
      alpha beta s
    have hmaxv := maxValue_idx clock useAB useOrd deadline dm (applyMove (clone b) m)
      alpha beta s
    split_ifs <;>
      first
        | (simp only [tick_idx, addGain_idx]
           omega)
        | (refine le_trans ?_ (ihm _ _ _ _ _ _)
           simp only [tick_idx, addGain_idx]
           omega)

/-- A depth search strictly advances the call index (it always reads the
clock at least once). -/
theorem searchDepth_idx (clock : Nat → Int) (useAB useOrd : Bool) (deadline : Int)
    (b : Board) (side : Side) (depth : Nat) (s : SState) :
    s.idx < (searchDepth clock useAB useOrd deadline b side depth s).2.2.idx := by
  unfold searchDepth
  dsimp only
  have h5 : (orderMoves useOrd (allLegalMovesS b side).2 side (allLegalMovesS b side).1
      (tick clock s).2).2.idx = s.idx + 1 := by
    rw [orderMoves_idx, tick_idx]
  split_ifs with h1 h2
  · exact Nat.lt_succ_self s.idx
  · have h4 := rootLoop_idx clock useAB useOrd deadline (depth - 1)
      (allLegalMovesS b side).2 side
      (orderMoves useOrd (allLegalMovesS b side).2 side (allLegalMovesS b side).1
        (tick clock s).2).1
      0 none (-(10 ^ 9)) (-(10 ^ 9)) (10 ^ 9)
      (orderMoves useOrd (allLegalMovesS b side).2 side (allLegalMovesS b side).1
        (tick clock s).2).2
    dsimp only
    simp only [tick_idx]
    omega
  · have h4 := rootLoop_idx clock useAB useOrd deadline (depth - 1)
      (allLegalMovesS b side).2 side
      (orderMoves useOrd (allLegalMovesS b side).2 side (allLegalMovesS b side).1
        (tick clock s).2).1
      0 none (10 ^ 9) (-(10 ^ 9)) (10 ^ 9)
      (orderMoves useOrd (allLegalMovesS b side).2 side (allLegalMovesS b side).1
        (tick clock s).2).2
    dsimp only
    simp only [tick_idx]
    omega

theorem maxValue_bounds (clock : Nat → Int) (useAB useOrd : Bool) (deadline : Int)
    (d : Nat) (bd : Board) (a be : Int) (s : SState) :
    -640 ≤ (maxValue clock useAB useOrd deadline d bd a be s).1 ∧
    (maxValue clock useAB useOrd deadline d bd a be s).1 ≤ 640 :=
  (value_bounds clock useAB useOrd allLegalMoves isTerminal deadline d).1 bd a be s

theorem minValue_bounds (clock : Nat → Int) (useAB useOrd : Bool) (deadline : Int)
    (d : Nat) (bd : Board) (a be : Int) (s : SState) :
    -640 ≤ (minValue clock useAB useOrd deadline d bd a be s).1 ∧
    (minValue clock useAB useOrd deadline d bd a be s).1 ≤ 640 :=
  (value_bounds clock useAB useOrd allLegalMoves isTerminal deadline d).2 bd a be s

/-- The root loop never forgets an already-found best move. -/
theorem rootLoop_some_mono (clock : Nat → Int) (useAB useOrd : Bool) (deadline : Int)
    (dm : Nat) (b : Board) (side : Side) :
    ∀ (ms : List Move) (idx : Nat) (bm : Option Move) (bs alpha beta : Int) (s : SState),
      bm.isSome = true →
      (rootLoop clock useAB useOrd deadline dm b side ms idx bm bs alpha beta s).1.isSome
        = true := by
  intro ms
  induction ms with
  | nil => intro idx bm bs alpha beta s h; rw [rootLoop]; exact h
  | cons m rest ihm =>
    intro idx bm bs alpha beta s h
    rw [rootLoop]
    dsimp only
    split_ifs <;>
      first
        | rfl
        | exact h
        | exact ihm _ _ _ _ _ _ rfl
        | exact ihm _ _ _ _ _ _ h

/-- For Black, the root loop on a non-empty list with a deeply negative
incumbent score always records a move. -/
theorem rootLoop_some_black (clock : Nat → Int) (useAB useOrd : Bool) (deadline : Int)
    (dm : Nat) (b : Board) (m : Move) (rest : List Move) (idx : Nat)
    (bm : Option Move) (bs alpha beta : Int) (s : SState) (hbs : bs < -640) :
    (rootLoop clock useAB useOrd deadline dm b Side.b (m :: rest) idx bm bs
      alpha beta s).1.isSome = true := by
  rw [rootLoop]
  dsimp only
  rw [if_pos rfl]
  have hvb := minValue_bounds clock useAB useOrd deadline dm (applyMove (clone b) m)
    alpha beta s
  split_ifs <;>
    first
      | rfl
      | exact rootLoop_some_mono clock useAB useOrd deadline dm b Side.b rest
          _ _ _ _ _ _ rfl
      | (exfalso; omega)

/-- For White, the root loop on a non-empty list with a deeply positive
incumbent score always records a move. -/
theorem rootLoop_some_white (clock : Nat → Int) (useAB useOrd : Bool) (deadline : Int)
    (dm : Nat) (b : Board) (m : Move) (rest : List Move) (idx : Nat)
    (bm : Option Move) (bs alpha beta : Int) (s : SState) (hbs : 640 < bs) :
    (rootLoop clock useAB useOrd deadline dm b Side.w (m :: rest) idx bm bs
      alpha beta s).1.isSome = true := by
  rw [rootLoop]
  dsimp only
  rw [if_neg (by decide : ¬ Side.w = Side.b)]
  have hvb := maxValue_bounds clock useAB useOrd deadline dm (applyMove (clone b) m)
    alpha beta s
  split_ifs <;>
    first
      | rfl
      | exact rootLoop_some_mono clock useAB useOrd deadline dm b Side.w rest
          _ _ _ _ _ _ rfl
      | (exfalso; omega)

/-- A depth search returns a move whenever the side to move has one: the
first root iteration always runs to completion and any in-range value beats
the ±10^9 sentinel. -/
theorem searchDepth_some (clock : Nat → Int) (useAB useOrd : Bool) (deadline : Int)
    (b : Board) (side : Side) (depth : Nat) (s : SState)
    (hm : allLegalMoves b side ≠ []) :
    (searchDepth clock useAB useOrd deadline b side depth s).1.1.isSome = true := by
  have hm' : ¬ (allLegalMovesS b side).1 = [] := hm
  unfold searchDepth
  dsimp only
  rw [if_neg hm']
  dsimp only
  obtain ⟨m, rest, hcons⟩ := List.exists_cons_of_ne_nil
    (orderMoves_ne_nil useOrd (allLegalMovesS b side).2 side (allLegalMovesS b side).1
      (tick clock s).2 hm')
  rw [hcons]
  cases side with
  | b =>
    rw [if_pos rfl]
    exact rootLoop_some_black clock useAB useOrd deadline (depth - 1) _ m rest 0
      none _ _ _ _ (by norm_num)
  | w =>
    rw [if_neg (by decide : ¬ Side.w = Side.b)]
    exact rootLoop_some_white clock useAB useOrd deadline (depth - 1) _ m rest 0
      none _ _ _ _ (by norm_num)

/-- A depth search with no legal root moves returns no move and no score,
hands back the board, and consumes one clock read. -/
theorem searchDepth_empty (clock : Nat → Int) (useAB useOrd : Bool) (deadline : Int)
    (b : Board) (side : Side) (depth : Nat) (s : SState)
    (hm : allLegalMoves b side = []) :
    searchDepth clock useAB useOrd deadline b side depth s
      = ((none, none), b, (tick clock s).2) := by
  have hm' : (allLegalMovesS b side).1 = [] := hm
  unfold searchDepth
  dsimp only
  rw [if_pos hm', allLegalMovesS_board]

/-- With no legal root moves, iterative deepening never records a move and
hands the board back unchanged. -/
theorem idLoop_none (clock : Nat → Int) (useAB useOrd : Bool) (deadline : Int)
    (b : Board) (side : Side) (hm : allLegalMoves b side = []) :
    ∀ (depths : List Nat) (bm : Option Move) (bs : Option Int) (s : SState),
      (idLoop clock useAB useOrd deadline b side depths bm bs s).1 = bm ∧
      (idLoop clock useAB useOrd deadline b side depths bm bs s).2.2.1 = b := by
  intro depths
  induction depths with
  | nil => intro bm bs s; rw [idLoop]; exact ⟨rfl, rfl⟩
  | cons d rest ih =>
    intro bm bs s
    rw [idLoop]
    dsimp only
    rw [searchDepth_empty clock useAB useOrd deadline b side d s hm]
    dsimp only
    split_ifs with h1 h2
    · exact ⟨rfl, rfl⟩
    · exact absurd h2 (by decide)
    · exact ih bm bs _

set_option maxRecDepth 100000 in
/-- With a never-expiring deadline and at least one legal move, iterative
deepening returns the move found by the deepest scheduled depth. -/
theorem idLoop_complete (clock : Nat → Int) (useAB useOrd : Bool) (deadline : Int)
    (b : Board) (side : Side) (hne : ∀ i, clock i ≤ deadline)
    (hm : allLegalMoves b side ≠ []) :
    ∀ (depths : List Nat), depths ≠ [] →
      ∀ (bm : Option Move) (bs : Option Int) (s : SState),
        ∃ s', (idLoop clock useAB useOrd deadline b side depths bm bs s).1
            = (searchDepth clock useAB useOrd deadline b side (depths.getLastD 0) s').1.1 ∧
          ((idLoop clock useAB useOrd deadline b side depths bm bs s).1).isSome = true := by
  intro depths
  induction depths with
  | nil => intro h; exact absurd rfl h
  | cons d rest ih =>
    intro _ bm bs s
    rw [idLoop]
    dsimp only
    have hdl : ∀ (st : SState), ¬ deadline < (tick clock st).1 := by
      intro st
      rw [tick_fst]
      exact not_lt.mpr (hne st.idx)
    simp only [if_neg (hdl _)]
    rw [if_pos (searchDepth_some clock useAB useOrd deadline b side d s hm)]
    dsimp only
    rw [searchDepth_board]
    cases rest with
    | nil =>
      rw [idLoop]
      have hgl0 : (d :: ([] : List Nat)).getLastD 0 = d := rfl
      rw [hgl0]
      refine ⟨s, ?_, ?_⟩
      · dsimp only
      · dsimp only
        exact searchDepth_some clock useAB useOrd deadline b side d s hm
    | cons d2 rest2 =>
      obtain ⟨s', h1, h2⟩ := ih (by simp)
        ((searchDepth clock useAB useOrd deadline b side d s).1.1)
        ((searchDepth clock useAB useOrd deadline b side d s).1.2)
        ((tick clock (searchDepth clock useAB useOrd deadline b side d s).2.2).2)
      have hgl : (d :: d2 :: rest2).getLastD 0 = (d2 :: rest2).getLastD 0 := by
        show (d2 :: rest2).getLastD d = (d2 :: rest2).getLastD 0
        exact getLastD_of_ne_nil _ d 0 (by simp)
      rw [hgl]
      exact ⟨s', h1, h2⟩

/-- When every clock read after the initial one is already past the
deadline, iterative deepening discards every depth's (mid-flight) result. -/
theorem idLoop_expire (clock : Nat → Int) (useAB useOrd : Bool) (deadline : Int)
    (b : Board) (side : Side) (s0 : Nat)
    (hexp : ∀ i, s0 < i → deadline < clock i) :
    ∀ (depths : List Nat) (bm : Option Move) (bs : Option Int) (s : SState),
      s0 ≤ s.idx →
      (idLoop clock useAB useOrd deadline b side depths bm bs s).1 = bm ∧
      (idLoop clock useAB useOrd deadline b side depths bm bs s).2.2.1 = b := by
  intro depths
  induction depths with
  | nil => intro bm bs s _; rw [idLoop]; exact ⟨rfl, rfl⟩
  | cons d rest ih =>
    intro bm bs s hs
    rw [idLoop]
    dsimp only
    have hidx := searchDepth_idx clock useAB useOrd deadline b side d s
    rw [if_pos (show deadline <
        (tick clock (searchDepth clock useAB useOrd deadline b side d s).2.2).1 by
      rw [tick_fst]
      exact hexp _ (lt_of_le_of_lt hs hidx))]
    rw [searchDepth_board]
    exact ⟨rfl, rfl⟩

/-- The last depth scheduled by iterative deepening is `max 1 PlyLimit`. -/
theorem range'_getLastD : ∀ (n s : Nat), (List.range' s (n + 1)).getLastD 0 = s + n := by
  intro n
  induction n with
  | zero => intro s; rfl
  | succ k ih =>
    intro s
    show (List.range' (s + 1) (k + 1)).getLastD s = s + (k + 1)
    rw [getLastD_of_ne_nil (List.range' (s + 1) (k + 1)) s 0
      (List.length_pos.mp (by rw [List.length_range']; omega))]
    rw [ih (s + 1)]
    omega

/-- C6: `ChooseMove` searches against the deadline `now + max(1, budget)`.
With no legal root moves it returns none; if the clock never passes the
deadline it returns the (always present) move of the deepest scheduled
depth `max(1, PlyLimit)`; if every later clock read is past the deadline
(so every depth is discarded mid-flight) it falls back to the head of
`AllLegalMoves`. -/
theorem c6_iterative_deepening (clock : Nat → Int) (useAB useOrd : Bool) (b : Board)
    (side : Side) (SecondsBudget : Int) (PlyLimit : Nat) (s : SState) :
    (allLegalMoves b side = [] →
      (chooseMove clock useAB useOrd b side SecondsBudget PlyLimit s).1 = none) ∧
    ((∀ i, clock i ≤ clock s.idx + max 1 SecondsBudget) → allLegalMoves b side ≠ [] →
      ∃ s', (chooseMove clock useAB useOrd b side SecondsBudget PlyLimit s).1
          = (searchDepth clock useAB useOrd (clock s.idx + max 1 SecondsBudget) b side
              (max 1 PlyLimit) s').1.1 ∧
        ((chooseMove clock useAB useOrd b side SecondsBudget PlyLimit s).1).isSome
          = true) ∧
    ((∀ i, s.idx < i → clock s.idx + max 1 SecondsBudget < clock i) →
      (chooseMove clock useAB useOrd b side SecondsBudget PlyLimit s).1
        = (allLegalMoves b side).head?) := by
  refine ⟨?_, ?_, ?_⟩
  · intro hm
    unfold chooseMove
    dsimp only
    rw [tick_fst]
    dsimp only
    obtain ⟨h1, h2⟩ := idLoop_none clock useAB useOrd
      (clock s.idx + max 1 SecondsBudget) b side hm
      (List.range' 1 (max 1 PlyLimit)) none none
      ((tick clock (⟨s.idx, {}⟩ : SState)).2)
    rw [h1]
    dsimp only
    rw [h2]
    have hm' : (allLegalMovesS b side).1 = [] := hm
    rw [hm']
    rfl
  · intro hne hm
    unfold chooseMove
    dsimp only
    rw [tick_fst]
    dsimp only
    have hne0 : List.range' 1 (max 1 PlyLimit) ≠ [] :=
      List.length_pos.mp (by rw [List.length_range']; omega)
    obtain ⟨s', h1, h2⟩ := idLoop_complete clock useAB useOrd
      (clock s.idx + max 1 SecondsBudget) b side hne hm
      (List.range' 1 (max 1 PlyLimit)) hne0 none none
      ((tick clock (⟨s.idx, {}⟩ : SState)).2)
    have hgl : (List.range' 1 (max 1 PlyLimit)).getLastD 0 = max 1 PlyLimit := by
      have h := range'_getLastD (max 1 PlyLimit - 1) 1
      rw [show max 1 PlyLimit - 1 + 1 = max 1 PlyLimit by omega] at h
      rw [h]
      omega
    rw [hgl] at h1
    obtain ⟨mv, hmv⟩ := Option.isSome_iff_exists.mp h2
    rw [hmv] at h1
    rw [hmv]
    dsimp only
    exact ⟨s', h1.symm.symm, rfl⟩
  · intro hexp
    unfold chooseMove
    dsimp only
    rw [tick_fst]
    dsimp only
    obtain ⟨h1, h2⟩ := idLoop_expire clock useAB useOrd
      (clock s.idx + max 1 SecondsBudget) b side s.idx hexp
      (List.range' 1 (max 1 PlyLimit)) none none
      ((tick clock (⟨s.idx, {}⟩ : SState)).2)
      (Nat.le_succ s.idx)
    rw [h1]
    dsimp only
    rw [h2]
    rfl

set_option maxRecDepth 1000000 in
unseal capStep capDirs in
/-- Witness for C6: no move on the empty board; on `capBoard` with a
constant clock the deepest depth's move is returned; with a clock that
jumps past the deadline after the first read the fallback head move is
returned. -/
theorem c6_witness :
    ((chooseMove (fun _ => 0) false false emptyBoard Side.b 1 1 ⟨0, {}⟩).1 = none) ∧
    (∃ s', (chooseMove (fun _ => 0) false false capBoard Side.b 1 1 ⟨0, {}⟩).1
        = (searchDepth (fun _ => 0) false false ((0 : Int) + max 1 1) capBoard Side.b
            (max 1 1) s').1.1 ∧
      ((chooseMove (fun _ => 0) false false capBoard Side.b 1 1 ⟨0, {}⟩).1).isSome
        = true) ∧
    ((chooseMove (fun i => if i = 0 then 0 else 10) false false capBoard Side.b 1 1
        ⟨0, {}⟩).1 = (allLegalMoves capBoard Side.b).head?) :=
  ⟨(c6_iterative_deepening (fun _ => 0) false false emptyBoard Side.b 1 1
      ⟨0, {}⟩).1 (by decide),
   (c6_iterative_deepening (fun _ => 0) false false capBoard Side.b 1 1
      ⟨0, {}⟩).2.1
     (fun i => by show (0 : Int) ≤ 0 + max 1 1; norm_num) (by decide),
   (c6_iterative_deepening (fun i => if i = 0 then 0 else 10) false false capBoard
      Side.b 1 1 ⟨0, {}⟩).2.2
     (fun i hi => by
       dsimp only at hi ⊢
       rw [if_pos rfl, if_neg (by omega : ¬ i = 0)]
       norm_num)⟩

/-- With ordering disabled, `_OrderMoves` is the identity on the list and
the analytics state. -/
theorem orderMoves_off (b : Board) (side : Side) (ms : List Move) (s : SState) :
    orderMoves false b side ms s = (ms, s) := by
  unfold orderMoves
  rw [if_pos rfl]

/-- The pure minimax values lie in [-640, 640]; the list folds are bounded
on the relevant side, and on both sides for non-empty lists. -/
theorem mm_bounds (lm : Board → Side → List Move) (tp : Board → Bool) : ∀ d : Nat,
    ((∀ bd, -640 ≤ mmaxValueAux lm tp d bd ∧ mmaxValueAux lm tp d bd ≤ 640) ∧
     (∀ bd, -640 ≤ mminValueAux lm tp d bd ∧ mminValueAux lm tp d bd ≤ 640)) ∧
    ((∀ bd ms, mmaxListAux lm tp d bd ms ≤ 640 ∧
        (ms ≠ [] → -640 ≤ mmaxListAux lm tp d bd ms)) ∧
     (∀ bd ms, -640 ≤ mminListAux lm tp d bd ms ∧
        (ms ≠ [] → mminListAux lm tp d bd ms ≤ 640))) := by
  have hp : (10 : Int) ^ 9 = 1000000000 := by norm_num
  intro d
  induction d with
  | zero =>
    have hvmax : ∀ bd, -640 ≤ mmaxValueAux lm tp 0 bd ∧ mmaxValueAux lm tp 0 bd ≤ 640 := by
      intro bd
      rw [mmaxValueAux, dif_pos (Or.inl rfl)]
      exact heuristicScore_bounds bd
    have hvmin : ∀ bd, -640 ≤ mminValueAux lm tp 0 bd ∧ mminValueAux lm tp 0 bd ≤ 640 := by
      intro bd
      rw [mminValueAux, dif_pos (Or.inl rfl)]
      exact heuristicScore_bounds bd
    refine ⟨⟨hvmax, hvmin⟩, ?_, ?_⟩
    · intro bd ms
      induction ms with
      | nil =>
        rw [mmaxListAux]
        refine ⟨by rw [hp]; omega, fun h => absurd rfl h⟩
      | cons m rest ih =>
        rw [mmaxListAux]
        obtain ⟨h1, h2⟩ := hvmin (applyMove (clone bd) m)
        refine ⟨?_, fun _ => ?_⟩ <;> omega
    · intro bd ms
      induction ms with
      | nil =>
        rw [mminListAux]
        refine ⟨by rw [hp]; omega, fun h => absurd rfl h⟩
      | cons m rest ih =>
        rw [mminListAux]
        obtain ⟨h1, h2⟩ := hvmax (applyMove (clone bd) m)
        refine ⟨?_, fun _ => ?_⟩ <;> omega
  | succ n ihn =>
    have hvmax : ∀ bd, -640 ≤ mmaxValueAux lm tp (n + 1) bd ∧
        mmaxValueAux lm tp (n + 1) bd ≤ 640 := by
      intro bd
      rw [mmaxValueAux]
      by_cases h2 : tp bd = true
      · rw [dif_pos (Or.inr h2)]
        exact heuristicScore_bounds bd
      · rw [dif_neg (not_or.mpr ⟨Nat.succ_ne_zero n, h2⟩)]
        dsimp only
        by_cases h3 : lm bd Side.b = []
        · rw [if_pos h3]
          exact heuristicScore_bounds bd
        · rw [if_neg h3, Nat.add_sub_cancel]
          obtain ⟨hl1, hl2⟩ := ihn.2.1 bd (lm bd Side.b)
          exact ⟨hl2 h3, hl1⟩
    have hvmin : ∀ bd, -640 ≤ mminValueAux lm tp (n + 1) bd ∧
        mminValueAux lm tp (n + 1) bd ≤ 640 := by
      intro bd
      rw [mminValueAux]
      by_cases h2 : tp bd = true
      · rw [dif_pos (Or.inr h2)]
        exact heuristicScore_bounds bd
      · rw [dif_neg (not_or.mpr ⟨Nat.succ_ne_zero n, h2⟩)]
        dsimp only
        by_cases h3 : lm bd Side.w = []
        · rw [if_pos h3]
          exact heuristicScore_bounds bd
        · rw [if_neg h3, Nat.add_sub_cancel]
          obtain ⟨hl1, hl2⟩ := ihn.2.2 bd (lm bd Side.w)
          exact ⟨hl1, hl2 h3⟩
    refine ⟨⟨hvmax, hvmin⟩, ?_, ?_⟩
    · intro bd ms
      induction ms with
      | nil =>
        rw [mmaxListAux]
        refine ⟨by rw [hp]; omega, fun h => absurd rfl h⟩
      | cons m rest ih =>
        rw [mmaxListAux]
        obtain ⟨h1, h2⟩ := hvmin (applyMove (clone bd) m)
        refine ⟨?_, fun _ => ?_⟩ <;> omega
    · intro bd ms
      induction ms with
      | nil =>
        rw [mminListAux]
        refine ⟨by rw [hp]; omega, fun h => absurd rfl h⟩
      | cons m rest ih =>
        rw [mminListAux]
        obtain ⟨h1, h2⟩ := hvmax (applyMove (clone bd) m)
        refine ⟨?_, fun _ => ?_⟩ <;> omega

/-- With pruning off, the inner loops compute the running `max`/`min` of
the pure minimax child values, given that the value calls at the same
remaining depth agree with pure minimax. -/
theorem loop_minimax_aux (clock : Nat → Int) (lm : Board → Side → List Move)
    (tp : Board → Bool) (deadline : Int) (d : Nat)
    (hvmax : ∀ bd a be s,
      (maxValueAux clock false false lm tp deadline d bd a be s).1 = mmaxValueAux lm tp d bd)
    (hvmin : ∀ bd a be s,
      (minValueAux clock false false lm tp deadline d bd a be s).1 = mminValueAux lm tp d bd) :
    (∀ bd ms best a be s, -(10 ^ 9) ≤ best →
      (maxLoopAux clock false false lm tp deadline d bd ms best a be s).1
        = max best (mmaxListAux lm tp d bd ms)) ∧
    (∀ bd ms best a be s, best ≤ 10 ^ 9 →
      (minLoopAux clock false false lm tp deadline d bd ms best a be s).1
        = min best (mminListAux lm tp d bd ms)) := by
  have hp : (10 : Int) ^ 9 = 1000000000 := by norm_num
  constructor
  · intro bd ms
    induction ms with
    | nil =>
      intro best a be s hbest
      rw [maxLoopAux, mmaxListAux]
      rw [hp] at hbest ⊢
      omega
    | cons m rest ihm =>
      intro best a be s hbest
      rw [maxLoopAux]
      rw [if_neg (by simp : ¬(false = true ∧ be ≤ max a (max best
        (minValueAux clock false false lm tp deadline d
          (applyMove (clone bd) m) a be s).1)))]
      have hh := ihm
          (max best (minValueAux clock false false lm tp deadline d
            (applyMove (clone bd) m) a be s).1)
          (max a (max best (minValueAux clock false false lm tp deadline d
            (applyMove (clone bd) m) a be s).1))
          be
          ((minValueAux clock false false lm tp deadline d
            (applyMove (clone bd) m) a be s).2)
          (le_trans hbest (le_max_left _ _))
      rw [hh]
      have hv := hvmin (applyMove (clone bd) m) a be s
      have hlist : mmaxListAux lm tp d bd (m :: rest)
          = max (mminValueAux lm tp d (applyMove (clone bd) m))
              (mmaxListAux lm tp d bd rest) := by
        rw [mmaxListAux]
      rw [hv, hlist]
      omega
  · intro bd ms
    induction ms with
    | nil =>
      intro best a be s hbest
      rw [minLoopAux, mminListAux]
      rw [hp] at hbest ⊢
      omega
    | cons m rest ihm =>
      intro best a be s hbest
      rw [minLoopAux]
      rw [if_neg (by simp : ¬(false = true ∧ min be (min best
        (maxValueAux clock false false lm tp deadline d
          (applyMove (clone bd) m) a be s).1) ≤ a))]
      have hh := ihm
          (min best (maxValueAux clock false false lm tp deadline d
            (applyMove (clone bd) m) a be s).1)
          a
          (min be (min best (maxValueAux clock false false lm tp deadline d
            (applyMove (clone bd) m) a be s).1))
          ((maxValueAux clock false false lm tp deadline d
            (applyMove (clone bd) m) a be s).2)
          (le_trans (min_le_left _ _) hbest)
      rw [hh]
      have hv := hvmax (applyMove (clone bd) m) a be s
      have hlist : mminListAux lm tp d bd (m :: rest)
          = min (mmaxValueAux lm tp d (applyMove (clone bd) m))
              (mminListAux lm tp d bd rest) := by
        rw [mminListAux]
      rw [hv, hlist]
      omega

/-- With the deadline never expiring, pruning off, and ordering off, every
engine value call computes exactly the pure minimax value. -/
theorem minimax_eq (clock : Nat → Int) (lm : Board → Side → List Move)
    (tp : Board → Bool) (deadline : Int) (hne : ∀ i, clock i ≤ deadline) :
    ∀ d : Nat,
      (∀ bd a be s,
        (maxValueAux clock false false lm tp deadline d bd a be s).1
          = mmaxValueAux lm tp d bd) ∧
      (∀ bd a be s,
        (minValueAux clock false false lm tp deadline d bd a be s).1
          = mminValueAux lm tp d bd) := by
  have hp : (10 : Int) ^ 9 = 1000000000 := by norm_num
  have hdl : ∀ st : SState, ¬ deadline < (tick clock st).1 := by
    intro st
    rw [tick_fst]
    exact not_lt.mpr (hne st.idx)
  intro d
  induction d with
  | zero =>
    constructor <;> intro bd a be s
    · rw [maxValueAux, mmaxValueAux, dif_pos (Or.inl rfl)]
      split_ifs <;> rfl
    · rw [minValueAux, mminValueAux, dif_pos (Or.inl rfl)]
      split_ifs <;> rfl
  | succ n ihn =>
    obtain ⟨hloopmax, hloopmin⟩ :=
      loop_minimax_aux clock lm tp deadline n ihn.1 ihn.2
    constructor <;> intro bd a be s
    · rw [maxValueAux]
      dsimp only
      rw [if_neg (hdl s)]
      by_cases h2 : tp bd = true
      · rw [if_pos h2, mmaxValueAux, dif_pos (Or.inr h2)]
      · rw [if_neg h2]
        by_cases h3 : lm bd Side.b = []
        · rw [if_pos h3, mmaxValueAux,
            dif_neg (not_or.mpr ⟨Nat.succ_ne_zero n, h2⟩)]
          dsimp only
          rw [if_pos h3]
        · rw [if_neg h3, orderMoves_off]
          dsimp only
          have hl := hloopmax bd (lm bd Side.b) (-(10 ^ 9)) a be
            (addNode (tick clock s).2) (le_refl _)
          rw [hl, mmaxValueAux, dif_neg (not_or.mpr ⟨Nat.succ_ne_zero n, h2⟩)]
          dsimp only
          rw [if_neg h3, Nat.add_sub_cancel]
          have hM := ((mm_bounds lm tp n).2.1 bd (lm bd Side.b)).2 h3
          exact max_eq_right (le_trans (by norm_num) hM)
    · rw [minValueAux]
      dsimp only
      rw [if_neg (hdl s)]
      by_cases h2 : tp bd = true
      · rw [if_pos h2, mminValueAux, dif_pos (Or.inr h2)]
      · rw [if_neg h2]
        by_cases h3 : lm bd Side.w = []
        · rw [if_pos h3, mminValueAux,
            dif_neg (not_or.mpr ⟨Nat.succ_ne_zero n, h2⟩)]
          dsimp only
          rw [if_pos h3]
        · rw [if_neg h3, orderMoves_off]
          dsimp only
          have hl := hloopmin bd (lm bd Side.w) (10 ^ 9) a be
            (addNode (tick clock s).2) (le_refl _)
          rw [hl, mminValueAux, dif_neg (not_or.mpr ⟨Nat.succ_ne_zero n, h2⟩)]
          dsimp only
          rw [if_neg h3, Nat.add_sub_cancel]
          have hM := ((mm_bounds lm tp n).2.2 bd (lm bd Side.w)).2 h3
          exact min_eq_right (le_trans hM (by norm_num))

/-- Fail-soft alpha-beta bounds for the inner loops (pruning on, ordering
off): if the loop fails low its result bounds the true value from above,
if it fails high from below, and inside the window it is exact. -/
theorem km_loop_aux (clock : Nat → Int) (lm : Board → Side → List Move)
    (tp : Board → Bool) (deadline : Int) (d : Nat)
    (hvmax : ∀ bd a be s, a < be →
      (((maxValueAux clock true false lm tp deadline d bd a be s).1 ≤ a →
          mmaxValueAux lm tp d bd ≤ (maxValueAux clock true false lm tp deadline d bd a be s).1) ∧
       (be ≤ (maxValueAux clock true false lm tp deadline d bd a be s).1 →
          (maxValueAux clock true false lm tp deadline d bd a be s).1 ≤ mmaxValueAux lm tp d bd) ∧
       (a < (maxValueAux clock true false lm tp deadline d bd a be s).1 →
          (maxValueAux clock true false lm tp deadline d bd a be s).1 < be →
          (maxValueAux clock true false lm tp deadline d bd a be s).1 = mmaxValueAux lm tp d bd)))
    (hvmin : ∀ bd a be s, a < be →
      (((minValueAux clock true false lm tp deadline d bd a be s).1 ≤ a →
          mminValueAux lm tp d bd ≤ (minValueAux clock true false lm tp deadline d bd a be s).1) ∧
       (be ≤ (minValueAux clock true false lm tp deadline d bd a be s).1 →
          (minValueAux clock true false lm tp deadline d bd a be s).1 ≤ mminValueAux lm tp d bd) ∧
       (a < (minValueAux clock true false lm tp deadline d bd a be s).1 →
          (minValueAux clock true false lm tp deadline d bd a be s).1 < be →
          (minValueAux clock true false lm tp deadline d bd a be s).1 = mminValueAux lm tp d bd))) :
    (∀ bd ms best a be s, a < be → -(10 ^ 9) ≤ best →
      (((maxLoopAux clock true false lm tp deadline d bd ms best a be s).1 ≤ a →
          max best (mmaxListAux lm tp d bd ms)
            ≤ (maxLoopAux clock true false lm tp deadline d bd ms best a be s).1) ∧
       (be ≤ (maxLoopAux clock true false lm tp deadline d bd ms best a be s).1 →
          (maxLoopAux clock true false lm tp deadline d bd ms best a be s).1
            ≤ max best (mmaxListAux lm tp d bd ms)) ∧
       (a < (maxLoopAux clock true false lm tp deadline d bd ms best a be s).1 →
          (maxLoopAux clock true false lm tp deadline d bd ms best a be s).1 < be →
          (maxLoopAux clock true false lm tp deadline d bd ms best a be s).1
            = max best (mmaxListAux lm tp d bd ms)))) ∧
    (∀ bd ms best a be s, a < be → best ≤ 10 ^ 9 →
      (((minLoopAux clock true false lm tp deadline d bd ms best a be s).1 ≤ a →
          min best (mminListAux lm tp d bd ms)
            ≤ (minLoopAux clock true false lm tp deadline d bd ms best a be s).1) ∧
       (be ≤ (minLoopAux clock true false lm tp deadline d bd ms best a be s).1 →
          (minLoopAux clock true false lm tp deadline d bd ms best a be s).1
            ≤ min best (mminListAux lm tp d bd ms)) ∧
       (a < (minLoopAux clock true false lm tp deadline d bd ms best a be s).1 →
          (minLoopAux clock true false lm tp deadline d bd ms best a be s).1 < be →
          (minLoopAux clock true false lm tp deadline d bd ms best a be s).1
            = min best (mminListAux lm tp d bd ms)))) := by
  have hp : (10 : Int) ^ 9 = 1000000000 := by norm_num
  constructor
  · intro bd ms
    induction ms with
    | nil =>
      intro best a be s hab hbest
      rw [maxLoopAux, mmaxListAux]
      rw [hp] at hbest
      refine ⟨fun h => ?_, fun h => ?_, fun h h' => ?_⟩ <;> omega
    | cons m rest ihm =>
      intro best a be s hab hbest
      rw [maxLoopAux]
      obtain ⟨hA, hB, hC⟩ := hvmin (applyMove (clone bd) m) a be s hab
      have hlist : mmaxListAux lm tp d bd (m :: rest)
          = max (mminValueAux lm tp d (applyMove (clone bd) m))
              (mmaxListAux lm tp d bd rest) := by
        rw [mmaxListAux]
      rw [hlist]
      split_ifs with h1
      · obtain ⟨-, h1⟩ := h1
        dsimp only
        refine ⟨fun h => ?_, fun h => ?_, fun h h' => ?_⟩ <;> omega
      · have hnc : ¬ be ≤ max a (max best
            (minValueAux clock true false lm tp deadline d
              (applyMove (clone bd) m) a be s).1) :=
          fun hh => h1 ⟨rfl, hh⟩
        obtain ⟨hI1, hI2, hI3⟩ := ihm
          (max best (minValueAux clock true false lm tp deadline d
            (applyMove (clone bd) m) a be s).1)
          (max a (max best (minValueAux clock true false lm tp deadline d
            (applyMove (clone bd) m) a be s).1))
          be
          ((minValueAux clock true false lm tp deadline d
            (applyMove (clone bd) m) a be s).2)
          (not_le.mp hnc)
          (le_trans hbest (le_max_left _ _))
        have hGb := ((loop_bounds_aux clock true false lm tp deadline d
          (value_bounds clock true false lm tp deadline d).1
          (value_bounds clock true false lm tp deadline d).2).1 bd rest
          (max best (minValueAux clock true false lm tp deadline d
            (applyMove (clone bd) m) a be s).1)
          (max a (max best (minValueAux clock true false lm tp deadline d
            (applyMove (clone bd) m) a be s).1))
          be
          ((minValueAux clock true false lm tp deadline d
            (applyMove (clone bd) m) a be s).2)).1
        refine ⟨fun h => ?_, fun h => ?_, fun h h' => ?_⟩ <;> omega
  · intro bd ms
    induction ms with
    | nil =>
      intro best a be s hab hbest
      rw [minLoopAux, mminListAux]
      rw [hp] at hbest
      refine ⟨fun h => ?_, fun h => ?_, fun h h' => ?_⟩ <;> omega
    | cons m rest ihm =>
      intro best a be s hab hbest
      rw [minLoopAux]
      obtain ⟨hA, hB, hC⟩ := hvmax (applyMove (clone bd) m) a be s hab
      have hlist : mminListAux lm tp d bd (m :: rest)
          = min (mmaxValueAux lm tp d (applyMove (clone bd) m))
              (mminListAux lm tp d bd rest) := by
        rw [mminListAux]
      rw [hlist]
      split_ifs with h1
      · obtain ⟨-, h1⟩ := h1
        dsimp only
        refine ⟨fun h => ?_, fun h => ?_, fun h h' => ?_⟩ <;> omega
      · have hnc : ¬ min be (min best
            (maxValueAux clock true false lm tp deadline d
              (applyMove (clone bd) m) a be s).1) ≤ a :=
          fun hh => h1 ⟨rfl, hh⟩
        obtain ⟨hI1, hI2, hI3⟩ := ihm
          (min best (maxValueAux clock true false lm tp deadline d
            (applyMove (clone bd) m) a be s).1)
          a
          (min be (min best (maxValueAux clock true false lm tp deadline d
            (applyMove (clone bd) m) a be s).1))
          ((maxValueAux clock true false lm tp deadline d
            (applyMove (clone bd) m) a be s).2)
          (not_le.mp hnc)
          (le_trans (min_le_left _ _) hbest)
        have hGb := ((loop_bounds_aux clock true false lm tp deadline d
          (value_bounds clock true false lm tp deadline d).1
          (value_bounds clock true false lm tp deadline d).2).2 bd rest
          (min best (maxValueAux clock true false lm tp deadline d
            (applyMove (clone bd) m) a be s).1)
          a
          (min be (min best (maxValueAux clock true false lm tp deadline d
            (applyMove (clone bd) m) a be s).1))
          ((maxValueAux clock true false lm tp deadline d
            (applyMove (clone bd) m) a be s).2)).1
        refine ⟨fun h => ?_, fun h => ?_, fun h h' => ?_⟩ <;> omega

/-- Fail-soft alpha-beta correctness (pruning on, ordering off, deadline
never expiring): a value call that fails low bounds the pure minimax value
from above, one that fails high bounds it from below, and one that lands
inside its window equals it. -/
theorem km_value (clock : Nat → Int) (lm : Board → Side → List Move)
    (tp : Board → Bool) (deadline : Int) (hne : ∀ i, clock i ≤ deadline) :
    ∀ d : Nat,
      (∀ bd a be s, a < be →
        (((maxValueAux clock true false lm tp deadline d bd a be s).1 ≤ a →
            mmaxValueAux lm tp d bd
              ≤ (maxValueAux clock true false lm tp deadline d bd a be s).1) ∧
         (be ≤ (maxValueAux clock true false lm tp deadline d bd a be s).1 →
            (maxValueAux clock true false lm tp deadline d bd a be s).1
              ≤ mmaxValueAux lm tp d bd) ∧
         (a < (maxValueAux clock true false lm tp deadline d bd a be s).1 →
            (maxValueAux clock true false lm tp deadline d bd a be s).1 < be →
            (maxValueAux clock true false lm tp deadline d bd a be s).1
              = mmaxValueAux lm tp d bd))) ∧
      (∀ bd a be s, a < be →
        (((minValueAux clock true false lm tp deadline d bd a be s).1 ≤ a →
            mminValueAux lm tp d bd
              ≤ (minValueAux clock true false lm tp deadline d bd a be s).1) ∧
         (be ≤ (minValueAux clock true false lm tp deadline d bd a be s).1 →
            (minValueAux clock true false lm tp deadline d bd a be s).1
              ≤ mminValueAux lm tp d bd) ∧
         (a < (minValueAux clock true false lm tp deadline d bd a be s).1 →
            (minValueAux clock true false lm tp deadline d bd a be s).1 < be →
            (minValueAux clock true false lm tp deadline d bd a be s).1
              = mminValueAux lm tp d bd))) := by
  have hdl : ∀ st : SState, ¬ deadline < (tick clock st).1 := by
    intro st
    rw [tick_fst]
    exact not_lt.mpr (hne st.idx)
  intro d
  induction d with
  | zero =>
    constructor <;> intro bd a be s hab
    · have hG : (maxValueAux clock true false lm tp deadline 0 bd a be s).1
          = heuristicScore bd := by
        rw [maxValueAux]
        split_ifs <;> rfl
      have hV : mmaxValueAux lm tp 0 bd = heuristicScore bd := by
        rw [mmaxValueAux, dif_pos (Or.inl rfl)]
      rw [hG, hV]
      exact ⟨fun _ => le_refl _, fun _ => le_refl _, fun _ _ => rfl⟩
    · have hG : (minValueAux clock true false lm tp deadline 0 bd a be s).1
          = heuristicScore bd := by
        rw [minValueAux]
        split_ifs <;> rfl
      have hV : mminValueAux lm tp 0 bd = heuristicScore bd := by
        rw [mminValueAux, dif_pos (Or.inl rfl)]
      rw [hG, hV]
      exact ⟨fun _ => le_refl _, fun _ => le_refl _, fun _ _ => rfl⟩
  | succ n ihn =>
    obtain ⟨hloopmax, hloopmin⟩ :=
      km_loop_aux clock lm tp deadline n ihn.1 ihn.2
    constructor <;> intro bd a be s hab
    · rw [maxValueAux]
      dsimp only
      rw [if_neg (hdl s)]
      by_cases h2 : tp bd = true
      · rw [if_pos h2]
        have hV : mmaxValueAux lm tp (n + 1) bd = heuristicScore bd := by
          rw [mmaxValueAux, dif_pos (Or.inr h2)]
        rw [hV]
        exact ⟨fun _ => le_refl _, fun _ => le_refl _, fun _ _ => rfl⟩
      · rw [if_neg h2]
        by_cases h3 : lm bd Side.b = []
        · rw [if_pos h3]
          have hV : mmaxValueAux lm tp (n + 1) bd = heuristicScore bd := by
            rw [mmaxValueAux, dif_neg (not_or.mpr ⟨Nat.succ_ne_zero n, h2⟩)]
            dsimp only
            rw [if_pos h3]
          rw [hV]
          exact ⟨fun _ => le_refl _, fun _ => le_refl _, fun _ _ => rfl⟩
        · rw [if_neg h3, orderMoves_off]
          dsimp only
          obtain ⟨hL1, hL2, hL3⟩ := hloopmax bd (lm bd Side.b) (-(10 ^ 9)) a be
            (addNode (tick clock s).2) hab (le_refl _)
          have hV : mmaxValueAux lm tp (n + 1) bd
              = mmaxListAux lm tp n bd (lm bd Side.b) := by
            rw [mmaxValueAux, dif_neg (not_or.mpr ⟨Nat.succ_ne_zero n, h2⟩)]
            dsimp only
            rw [if_neg h3, Nat.add_sub_cancel]
          have hM := ((mm_bounds lm tp n).2.1 bd (lm bd Side.b)).2 h3
          have hPM : max (-(10 ^ 9)) (mmaxListAux lm tp n bd (lm bd Side.b))
              = mmaxListAux lm tp n bd (lm bd Side.b) :=
            max_eq_right (le_trans (by norm_num) hM)
          rw [hPM] at hL1 hL2 hL3
          rw [hV]
          exact ⟨hL1, hL2, hL3⟩
    · rw [minValueAux]
      dsimp only
      rw [if_neg (hdl s)]
      by_cases h2 : tp bd = true
      · rw [if_pos h2]
        have hV : mminValueAux lm tp (n + 1) bd = heuristicScore bd := by
          rw [mminValueAux, dif_pos (Or.inr h2)]
        rw [hV]
        exact ⟨fun _ => le_refl _, fun _ => le_refl _, fun _ _ => rfl⟩
      · rw [if_neg h2]
        by_cases h3 : lm bd Side.w = []
        · rw [if_pos h3]
          have hV : mminValueAux lm tp (n + 1) bd = heuristicScore bd := by
            rw [mminValueAux, dif_neg (not_or.mpr ⟨Nat.succ_ne_zero n, h2⟩)]
            dsimp only
            rw [if_pos h3]
          rw [hV]
          exact ⟨fun _ => le_refl _, fun _ => le_refl _, fun _ _ => rfl⟩
        · rw [if_neg h3, orderMoves_off]
          dsimp only
          obtain ⟨hL1, hL2, hL3⟩ := hloopmin bd (lm bd Side.w) (10 ^ 9) a be
            (addNode (tick clock s).2) hab (le_refl _)
          have hV : mminValueAux lm tp (n + 1) bd
              = mminListAux lm tp n bd (lm bd Side.w) := by
            rw [mminValueAux, dif_neg (not_or.mpr ⟨Nat.succ_ne_zero n, h2⟩)]
            dsimp only
            rw [if_neg h3, Nat.add_sub_cancel]
          have hM := ((mm_bounds lm tp n).2.2 bd (lm bd Side.w)).2 h3
          have hPM : min (10 ^ 9) (mminListAux lm tp n bd (lm bd Side.w))
              = mminListAux lm tp n bd (lm bd Side.w) :=
            min_eq_right (le_trans hM (by norm_num))
          rw [hPM] at hL1 hL2 hL3
          rw [hV]
          exact ⟨hL1, hL2, hL3⟩

/-- For Black at the root, with alpha tracking the incumbent score and an
open beta window, the root loop computes the running `max` of the pure
minimax child values — for any child evaluator satisfying the fail-soft
bounds. -/
theorem rootLoop_mm_black (clock : Nat → Int) (useAB : Bool) (deadline : Int)
    (dm : Nat) (b : Board) (hne : ∀ i, clock i ≤ deadline)
    (hchild : ∀ cl a (s : SState), a < 10 ^ 9 →
      (((minValue clock useAB false deadline dm cl a (10 ^ 9) s).1 ≤ a →
          mminValue dm cl ≤ (minValue clock useAB false deadline dm cl a (10 ^ 9) s).1) ∧
       (a < (minValue clock useAB false deadline dm cl a (10 ^ 9) s).1 →
          (minValue clock useAB false deadline dm cl a (10 ^ 9) s).1 = mminValue dm cl))) :
    ∀ (ms : List Move) (idx : Nat) (bm : Option Move) (bs alpha beta : Int) (s : SState),
      alpha = bs → beta = 10 ^ 9 → bs < 10 ^ 9 → -(10 ^ 9) ≤ bs →
      (rootLoop clock useAB false deadline dm b Side.b ms idx bm bs alpha beta s).2.1
        = max bs (mmaxList dm b ms) := by
  have hdl : ∀ st : SState, ¬ deadline < (tick clock st).1 := by
    intro st
    rw [tick_fst]
    exact not_lt.mpr (hne st.idx)
  intro ms
  induction ms with
  | nil =>
    intro idx bm bs alpha beta s halpha hbeta hbs hbs2
    rw [rootLoop]
    have hnil : mmaxList dm b [] = -(10 ^ 9) := by
      show mmaxListAux allLegalMoves isTerminal dm b [] = _
      rw [mmaxListAux]
    rw [hnil]
    exact (max_eq_left hbs2).symm
  | cons m rest ihm =>
    intro idx bm bs alpha beta s halpha hbeta hbs hbs2
    rw [halpha, hbeta]
    rw [rootLoop]
    dsimp only
    rw [if_pos rfl]
    simp only [if_neg (hdl _)]
    obtain ⟨hc1, hc2⟩ := hchild (applyMove (clone b) m) bs s hbs
    have hvb := minValue_bounds clock useAB false deadline dm
      (applyMove (clone b) m) bs (10 ^ 9) s
    have hlist : mmaxList dm b (m :: rest)
        = max (mminValue dm (applyMove (clone b) m)) (mmaxList dm b rest) := by
      show mmaxListAux allLegalMoves isTerminal dm b (m :: rest) = _
      rw [mmaxListAux]
      rfl
    rw [hlist]
    split_ifs with h1 h2
    · rw [ihm (idx + 1) (some m)
        ((minValue clock useAB false deadline dm (applyMove (clone b) m)
          bs (10 ^ 9) s).1)
        (max bs (minValue clock useAB false deadline dm (applyMove (clone b) m)
          bs (10 ^ 9) s).1)
        (10 ^ 9)
        ((tick clock (addGain (minValue clock useAB false deadline dm
          (applyMove (clone b) m) bs (10 ^ 9) s).2)).2)
        (by omega) rfl (lt_of_le_of_lt hvb.2 (by norm_num))
        (le_trans (by norm_num) hvb.1)]
      have hg := hc2 h1
      omega
    · rw [ihm (idx + 1) (some m)
        ((minValue clock useAB false deadline dm (applyMove (clone b) m)
          bs (10 ^ 9) s).1)
        (max bs (minValue clock useAB false deadline dm (applyMove (clone b) m)
          bs (10 ^ 9) s).1)
        (10 ^ 9)
        ((tick clock (minValue clock useAB false deadline dm
          (applyMove (clone b) m) bs (10 ^ 9) s).2).2)
        (by omega) rfl (lt_of_le_of_lt hvb.2 (by norm_num))
        (le_trans (by norm_num) hvb.1)]
      have hg := hc2 h1
      omega
    · rw [ihm (idx + 1) bm bs (max bs bs) (10 ^ 9)
        ((tick clock (minValue clock useAB false deadline dm
          (applyMove (clone b) m) bs (10 ^ 9) s).2).2)
        (by omega) rfl hbs hbs2]
      have hg := hc1 (not_lt.mp h1)
      omega

/-- For White at the root, with beta tracking the incumbent score and an
open alpha window, the root loop computes the running `min` of the pure
minimax child values. -/
theorem rootLoop_mm_white (clock : Nat → Int) (useAB : Bool) (deadline : Int)
    (dm : Nat) (b : Board) (hne : ∀ i, clock i ≤ deadline)
    (hchild : ∀ cl be (s : SState), -(10 ^ 9) < be →
      ((be ≤ (maxValue clock useAB false deadline dm cl (-(10 ^ 9)) be s).1 →
          (maxValue clock useAB false deadline dm cl (-(10 ^ 9)) be s).1
            ≤ mmaxValue dm cl) ∧
       ((maxValue clock useAB false deadline dm cl (-(10 ^ 9)) be s).1 < be →
          (maxValue clock useAB false deadline dm cl (-(10 ^ 9)) be s).1
            = mmaxValue dm cl))) :
    ∀ (ms : List Move) (idx : Nat) (bm : Option Move) (bs alpha beta : Int) (s : SState),
      alpha = -(10 ^ 9) → beta = bs → -(10 ^ 9) < bs → bs ≤ 10 ^ 9 →
      (rootLoop clock useAB false deadline dm b Side.w ms idx bm bs alpha beta s).2.1
        = min bs (mminList dm b ms) := by
  have hdl : ∀ st : SState, ¬ deadline < (tick clock st).1 := by
    intro st
    rw [tick_fst]
    exact not_lt.mpr (hne st.idx)
  intro ms
  induction ms with
  | nil =>
    intro idx bm bs alpha beta s halpha hbeta hbs hbs2
    rw [rootLoop]
    have hnil : mminList dm b [] = 10 ^ 9 := by
      show mminListAux allLegalMoves isTerminal dm b [] = _
      rw [mminListAux]
    rw [hnil]
    exact (min_eq_left hbs2).symm
  | cons m rest ihm =>
    intro idx bm bs alpha beta s halpha hbeta hbs hbs2
    rw [halpha, hbeta]
    rw [rootLoop]
    dsimp only
    rw [if_neg (by decide : ¬ Side.w = Side.b)]
    simp only [if_neg (hdl _)]
    obtain ⟨hc1, hc2⟩ := hchild (applyMove (clone b) m) bs s hbs
    have hvb := maxValue_bounds clock useAB false deadline dm
      (applyMove (clone b) m) (-(10 ^ 9)) bs s
    have hlist : mminList dm b (m :: rest)
        = min (mmaxValue dm (applyMove (clone b) m)) (mminList dm b rest) := by
      show mminListAux allLegalMoves isTerminal dm b (m :: rest) = _
      rw [mminListAux]
      rfl
    rw [hlist]
    split_ifs with h1 h2
    · rw [ihm (idx + 1) (some m)
        ((maxValue clock useAB false deadline dm (applyMove (clone b) m)
          (-(10 ^ 9)) bs s).1)
        (-(10 ^ 9))
        (min bs (maxValue clock useAB false deadline dm (applyMove (clone b) m)
          (-(10 ^ 9)) bs s).1)
        ((tick clock (addGain (maxValue clock useAB false deadline dm
          (applyMove (clone b) m) (-(10 ^ 9)) bs s).2)).2)
        rfl (by omega) (lt_of_lt_of_le (by norm_num) hvb.1)
        (le_trans hvb.2 (by norm_num))]
      have hg := hc2 h1
      omega
    · rw [ihm (idx + 1) (some m)
        ((maxValue clock useAB false deadline dm (applyMove (clone b) m)
          (-(10 ^ 9)) bs s).1)
        (-(10 ^ 9))
        (min bs (maxValue clock useAB false deadline dm (applyMove (clone b) m)
          (-(10 ^ 9)) bs s).1)
        ((tick clock (maxValue clock useAB false deadline dm
          (applyMove (clone b) m) (-(10 ^ 9)) bs s).2).2)
        rfl (by omega) (lt_of_lt_of_le (by norm_num) hvb.1)
        (le_trans hvb.2 (by norm_num))]
      have hg := hc2 h1
      omega
    · rw [ihm (idx + 1) bm bs (-(10 ^ 9)) (min bs bs)
        ((tick clock (maxValue clock useAB false deadline dm
          (applyMove (clone b) m) (-(10 ^ 9)) bs s).2).2)
        rfl (by omega) hbs hbs2]
      have hg := hc1 (not_lt.mp h1)
      omega

/-- A depth search for Black (ordering off) reports the pure minimax value
fold over the root moves, for any mode whose child calls satisfy the
fail-soft bounds. -/
theorem searchDepth_mm_black (clock : Nat → Int) (useAB : Bool) (deadline : Int)
    (b : Board) (depth : Nat) (s : SState) (hne : ∀ i, clock i ≤ deadline)
    (hchild : ∀ cl a (st : SState), a < 10 ^ 9 →
      (((minValue clock useAB false deadline (depth - 1) cl a (10 ^ 9) st).1 ≤ a →
          mminValue (depth - 1) cl
            ≤ (minValue clock useAB false deadline (depth - 1) cl a (10 ^ 9) st).1) ∧
       (a < (minValue clock useAB false deadline (depth - 1) cl a (10 ^ 9) st).1 →
          (minValue clock useAB false deadline (depth - 1) cl a (10 ^ 9) st).1
            = mminValue (depth - 1) cl)))
    (hm : ¬ (allLegalMovesS b Side.b).1 = []) :
    (searchDepth clock useAB false deadline b Side.b depth s).1.2
      = some (max (-(10 ^ 9))
          (mmaxList (depth - 1) b (allLegalMovesS b Side.b).1)) := by
  unfold searchDepth
  dsimp only
  rw [if_neg hm]
  dsimp only
  rw [allLegalMovesS_board, orderMoves_off]
  dsimp only
  rw [if_pos rfl]
  rw [rootLoop_mm_black clock useAB deadline (depth - 1) b hne hchild
    (allLegalMovesS b Side.b).1 0 none (-(10 ^ 9)) (-(10 ^ 9)) (10 ^ 9)
    (tick clock s).2 rfl rfl (by norm_num) (le_refl _)]

/-- A depth search for White (ordering off) reports the pure minimax value
fold over the root moves, for any mode whose child calls satisfy the
fail-soft bounds. -/
theorem searchDepth_mm_white (clock : Nat → Int) (useAB : Bool) (deadline : Int)
    (b : Board) (depth : Nat) (s : SState) (hne : ∀ i, clock i ≤ deadline)
    (hchild : ∀ cl be (st : SState), -(10 ^ 9) < be →
      ((be ≤ (maxValue clock useAB false deadline (depth - 1) cl (-(10 ^ 9)) be st).1 →
          (maxValue clock useAB false deadline (depth - 1) cl (-(10 ^ 9)) be st).1
            ≤ mmaxValue (depth - 1) cl) ∧
       ((maxValue clock useAB false deadline (depth - 1) cl (-(10 ^ 9)) be st).1 < be →
          (maxValue clock useAB false deadline (depth - 1) cl (-(10 ^ 9)) be st).1
            = mmaxValue (depth - 1) cl)))
    (hm : ¬ (allLegalMovesS b Side.w).1 = []) :
    (searchDepth clock useAB false deadline b Side.w depth s).1.2
      = some (min (10 ^ 9)
          (mminList (depth - 1) b (allLegalMovesS b Side.w).1)) := by
  unfold searchDepth
  dsimp only
  rw [if_neg hm]
  dsimp only
  rw [allLegalMovesS_board, orderMoves_off]
  dsimp only
  rw [if_neg (by decide : ¬ Side.w = Side.b)]
  rw [rootLoop_mm_white clock useAB deadline (depth - 1) b hne hchild
    (allLegalMovesS b Side.w).1 0 none (10 ^ 9) (-(10 ^ 9)) (10 ^ 9)
    (tick clock s).2 rfl rfl (by norm_num) (le_refl _)]

/-- C7: with the deadline never expiring and ordering off, the root score
of a depth search is the same with alpha-beta pruning off ("minimax" mode)
and on ("alpha-beta" mode), for every board, side, depth, and pair of
analytics states. -/
theorem c7_pruning_preserves_score (clock : Nat → Int) (deadline : Int)
    (b : Board) (side : Side) (depth : Nat) (s1 s2 : SState)
    (hne : ∀ i, clock i ≤ deadline) :
    (searchDepth clock false false deadline b side depth s1).1.2
      = (searchDepth clock true false deadline b side depth s2).1.2 := by
  by_cases hm : (allLegalMovesS b side).1 = []
  · rw [searchDepth_empty clock false false deadline b side depth s1 hm,
      searchDepth_empty clock true false deadline b side depth s2 hm]
  · cases side with
    | b =>
      have hchildF : ∀ cl a (st : SState), a < 10 ^ 9 →
          (((minValue clock false false deadline (depth - 1) cl a (10 ^ 9) st).1 ≤ a →
              mminValue (depth - 1) cl
                ≤ (minValue clock false false deadline (depth - 1) cl a (10 ^ 9) st).1) ∧
           (a < (minValue clock false false deadline (depth - 1) cl a (10 ^ 9) st).1 →
              (minValue clock false false deadline (depth - 1) cl a (10 ^ 9) st).1
                = mminValue (depth - 1) cl)) := by
        intro cl a st ha
        have h := (minimax_eq clock allLegalMoves isTerminal deadline hne (depth - 1)).2
          cl a (10 ^ 9) st
        exact ⟨fun _ => le_of_eq h.symm, fun _ => h⟩
      have hchildT : ∀ cl a (st : SState), a < 10 ^ 9 →
          (((minValue clock true false deadline (depth - 1) cl a (10 ^ 9) st).1 ≤ a →
              mminValue (depth - 1) cl
                ≤ (minValue clock true false deadline (depth - 1) cl a (10 ^ 9) st).1) ∧
           (a < (minValue clock true false deadline (depth - 1) cl a (10 ^ 9) st).1 →
              (minValue clock true false deadline (depth - 1) cl a (10 ^ 9) st).1
                = mminValue (depth - 1) cl)) := by
        intro cl a st ha
        have h := (km_value clock allLegalMoves isTerminal deadline hne (depth - 1)).2
          cl a (10 ^ 9) st ha
        refine ⟨h.1, fun hlt => h.2.2 hlt ?_⟩
        exact lt_of_le_of_lt
          (minValue_bounds clock true false deadline (depth - 1) cl a (10 ^ 9) st).2
          (by norm_num)
      rw [searchDepth_mm_black clock false deadline b depth s1 hne hchildF hm,
        searchDepth_mm_black clock true deadline b depth s2 hne hchildT hm]
    | w =>
      have hchildF : ∀ cl be (st : SState), -(10 ^ 9) < be →
          ((be ≤ (maxValue clock false false deadline (depth - 1) cl (-(10 ^ 9)) be st).1 →
              (maxValue clock false false deadline (depth - 1) cl (-(10 ^ 9)) be st).1
                ≤ mmaxValue (depth - 1) cl) ∧
           ((maxValue clock false false deadline (depth - 1) cl (-(10 ^ 9)) be st).1 < be →
              (maxValue clock false false deadline (depth - 1) cl (-(10 ^ 9)) be st).1
                = mmaxValue (depth - 1) cl)) := by
        intro cl be st hbe
        have h := (minimax_eq clock allLegalMoves isTerminal deadline hne (depth - 1)).1
          cl (-(10 ^ 9)) be st
        exact ⟨fun _ => le_of_eq h, fun _ => h⟩
      have hchildT : ∀ cl be (st : SState), -(10 ^ 9) < be →
          ((be ≤ (maxValue clock true false deadline (depth - 1) cl (-(10 ^ 9)) be st).1 →
              (maxValue clock true false deadline (depth - 1) cl (-(10 ^ 9)) be st).1
                ≤ mmaxValue (depth - 1) cl) ∧
           ((maxValue clock true false deadline (depth - 1) cl (-(10 ^ 9)) be st).1 < be →
              (maxValue clock true false deadline (depth - 1) cl (-(10 ^ 9)) be st).1
                = mmaxValue (depth - 1) cl)) := by
        intro cl be st hbe
        have h := (km_value clock allLegalMoves isTerminal deadline hne (depth - 1)).1
          cl (-(10 ^ 9)) be st hbe
        refine ⟨h.2.1, fun hlt => h.2.2 ?_ hlt⟩
        exact lt_of_lt_of_le (by norm_num)
          (maxValue_bounds clock true false deadline (depth - 1) cl (-(10 ^ 9)) be st).1
      rw [searchDepth_mm_white clock false deadline b depth s1 hne hchildF hm,
        searchDepth_mm_white clock true deadline b depth s2 hne hchildT hm]

/-- Witness for C7: on `capBoard` at depth 2 with a constant clock, the
minimax-mode and alpha-beta-mode root scores coincide (even from different
analytics states). -/
theorem c7_witness :
    (searchDepth (fun _ => 0) false false 0 capBoard Side.b 2 ⟨0, {}⟩).1.2
      = (searchDepth (fun _ => 0) true false 0 capBoard Side.b 2 ⟨5, {}⟩).1.2 :=
  c7_pruning_preserves_score (fun _ => 0) 0 capBoard Side.b 2 ⟨0, {}⟩ ⟨5, {}⟩
    (fun _ => le_refl 0)
